import Mathlib

/-!
# Verification of the applechess search agents

A shallow embedding of the repository's four Go source files:

* `alphabeta/alphabeta.go` — depth-bounded alpha-beta search with the
  threat-count evaluator,
* `minmax/minmax.go` — depth-bounded minimax with the static-exchange
  evaluator,
* the two MCTS variants (`mcts` parallel-root with 20-ply rollouts and a
  material fallback, and `mcts` single-tree with 50-ply rollouts),
* `main.go` — the command-line harness.

The chess rules engine (`github.com/brighamskarda/chess`) is external to the
repository, so the searches are embedded as functions parameterized by an
abstract `Engine` record supplying legal/pseudo-legal move generation, move
application, checkmate/stalemate tests and piece lookup.  A `Position` is a
structure with the two fields the repository's code touches directly
(`Turn`, `Board`) plus an opaque `extra` component standing for every other
field of `chess.Position` (castling rights, en passant, ...), so that the
engine's functions may depend on the full state.

Go `float64` scores are modelled by `ℚ`.  The search logic itself performs
no score arithmetic beyond comparisons, copies of the literal constants and
the sentinel `math.MaxFloat64`; the latter is embedded by its exact rational
value `2^1024 - 2^971`.
-/

namespace AppleChess

/-- Piece colors of `chess.Color`; `noColor` stands for the zero value that is
neither `chess.White` nor `chess.Black`. -/
inductive Color where
  | white
  | black
  | noColor
deriving DecidableEq, Repr

/-- Piece types of `chess.PieceType`; `noType` is the zero value. -/
inductive PieceType where
  | pawn
  | rook
  | knight
  | bishop
  | queen
  | king
  | noType
deriving DecidableEq, Repr

/-- `chess.Piece`: a color together with a piece type. -/
structure Piece where
  color : Color
  type : PieceType
deriving DecidableEq, Repr

instance : Inhabited Piece := ⟨⟨.noColor, .noType⟩⟩

/-- Squares (`chess.Square`) are identified with naturals; `noSquare` models
`chess.NoSquare`. -/
abbrev Square := Nat

/-- Model of `chess.NoSquare` (distinct from the board squares `0..63` used by
the concrete engines below). -/
def noSquare : Square := 1000

/-- `chess.Move`: from-square, to-square and promotion piece type. -/
structure Move where
  fromSquare : Square
  toSquare : Square
  promotion : PieceType := .noType
deriving DecidableEq, Repr

/-- The zero value `chess.Move{}`, the repository's "no move" sentinel. -/
def nullMove : Move := ⟨0, 0, .noType⟩

instance : Inhabited Move := ⟨nullMove⟩

/-- `chess.Position` as seen by the repository: the `Turn` and `Board` fields
it reads and writes directly, plus an opaque `extra` component carrying the
rest of the rules engine's state. The board is the `[64]Piece` array, modelled
as a list indexed by square. -/
structure Position (Extra : Type) where
  turn : Color
  board : List Piece
  extra : Extra
deriving DecidableEq, Repr

/-- The rules-engine contract consumed by the repository (external package
`github.com/brighamskarda/chess`): move generation, move application,
terminal-state tests and board lookup. -/
structure Engine (Extra : Type) where
  legalMoves : Position Extra → List Move
  pseudoLegalMoves : Position Extra → List Move
  applyMove : Position Extra → Move → Position Extra
  isCheckMate : Position Extra → Bool
  isStaleMate : Position Extra → Bool
  pieceAt : Position Extra → Square → Piece
  allSquares : List Square

/-- The exact rational value of `math.MaxFloat64`, the sentinel score used by
both searchers. -/
def maxFloat : ℚ := 2 ^ 1024 - 2 ^ 971

/-! ## Shared evaluator pieces (`getPieceValue`, `sumMaterial`)

`getPieceValue` appears identically in `alphabeta.go` and `minmax.go`:
pawn 1, rook 5, knight 2.9, bishop 3, queen 8, king 10000, signed positive
for White and negative otherwise. -/

/-- `getPieceValue` from `alphabeta.go`/`minmax.go`. -/
def getPieceValue (p : Piece) : ℚ :=
  let val : ℚ :=
    match p.type with
    | .pawn => 1
    | .rook => 5
    | .knight => 29 / 10
    | .bishop => 3
    | .queen => 8
    | .king => 10000
    | .noType => 0
  if p.color = .white then val else -val

/-- `sumMaterial`: sum of `getPieceValue` over the 64 board entries. -/
def sumMaterial {Extra : Type} (p : Position Extra) : ℚ :=
  (p.board.map getPieceValue).sum

/-- `findKing` from `alphabeta.go`/`minmax.go`: first square in `AllSquares`
holding a king of color `c`, else `NoSquare`. -/
def findKing {Extra : Type} (E : Engine Extra) (p : Position Extra) (c : Color) : Square :=
  go E.allSquares
where
  go : List Square → Square
    | [] => noSquare
    | sq :: rest =>
      let piece := E.pieceAt p sq
      if piece.type = .king ∧ piece.color = c then sq else go rest

/-- `numPseudoLegalChecks` from `alphabeta.go`: force White to move and count
pseudo-legal moves onto the black king's square, then force Black to move and
subtract the pseudo-legal moves onto the white king's square, finally restore
the original side to move.  The Go function mutates the position through a
pointer, so the embedding returns the count together with the position as it
stands on return. -/
def numPseudoLegalChecks {Extra : Type} (E : Engine Extra) (p : Position Extra) :
    Int × Position Extra :=
  let origTurn := p.turn
  let p1 : Position Extra := { p with turn := .white }
  let blackKing := findKing E p1 .black
  let t1 : Int := ((E.pseudoLegalMoves p1).filter (fun m => m.toSquare = blackKing)).length
  let p2 : Position Extra := { p1 with turn := .black }
  let whiteKing := findKing E p2 .white
  let t2 : Int := ((E.pseudoLegalMoves p2).filter (fun m => m.toSquare = whiteKing)).length
  let p3 : Position Extra := { p2 with turn := origTurn }
  (t1 - t2, p3)

/-- `evaluate` from `alphabeta.go`: material plus `0.2` per pseudo-legal
check, returned together with the position as left behind by
`numPseudoLegalChecks`. -/
def evaluateAlphaBetaSt {Extra : Type} (E : Engine Extra) (p : Position Extra) :
    ℚ × Position Extra :=
  let (checks, p') := numPseudoLegalChecks E p
  (sumMaterial p + (checks : ℚ) * (1 / 5), p')

/-- The score computed by the alpha-beta package's `evaluate`. -/
def evalAlphaBeta {Extra : Type} (E : Engine Extra) (p : Position Extra) : ℚ :=
  (evaluateAlphaBetaSt E p).1

/-! ## The minmax package's static-exchange evaluator (`calcAttacks`) -/

/-- The scan inside `simulateAttacks` (`minmax.go`): among the legal moves
onto `square`, track the move whose source piece has the lowest
`getPieceValue` when White is to move, resp. the highest when Black is to
move (black pieces carry negative values). -/
def simAttackScan {Extra : Type} (E : Engine Extra) (p : Position Extra) (square : Square) :
    List Move → ℚ × Move → ℚ × Move
  | [], acc => acc
  | move :: rest, (lowestCost, lowestMove) =>
    if move.toSquare ≠ square then simAttackScan E p square rest (lowestCost, lowestMove)
    else
      let cost := getPieceValue (E.pieceAt p move.fromSquare)
      let acc :=
        if p.turn = .white then
          (if cost < lowestCost then (cost, move) else (lowestCost, lowestMove))
        else if p.turn = .black then
          (if cost > lowestCost then (cost, move) else (lowestCost, lowestMove))
        else (lowestCost, lowestMove)
      simAttackScan E p square rest acc

/-- `simulateAttacks` from `minmax.go`: repeatedly play the cheapest legal
move landing on `square` and accumulate the negated cost; base case 0 when no
move targets the square.  The Go recursion terminates because chess capture
sequences are finite; the embedding makes that bound explicit as `fuel` (any
fuel at least the length of the capture sequence reproduces the Go result,
and `fuel = 0` corresponds to the base case). -/
def simulateAttacks {Extra : Type} (E : Engine Extra) :
    Nat → Position Extra → Square → ℚ
  | 0, _, _ => 0
  | fuel + 1, p, square =>
    let legalMoves := E.legalMoves p
    let init : ℚ × Move := (if p.turn = .black then -maxFloat else maxFloat, nullMove)
    let res := simAttackScan E p square legalMoves init
    if res.2 = nullMove then 0
    else simulateAttacks E fuel (E.applyMove p res.2) square - res.1

/-- `calcAttacks` from `minmax.go`: sum `simulateAttacks` over all squares,
each on a fresh copy of the position. -/
def calcAttacks {Extra : Type} (E : Engine Extra) (fuel : Nat) (p : Position Extra) : ℚ :=
  (E.allSquares.map (fun square => simulateAttacks E fuel p square)).sum

/-- `evaluate` from `minmax.go`: material plus the static-exchange term. -/
def evalMinmax {Extra : Type} (E : Engine Extra) (fuel : Nat) (p : Position Extra) : ℚ :=
  sumMaterial p + calcAttacks E fuel p

/-! ## Minmax search (`minmax.go`)

`search` dispatches on the side to move; `max`/`min` handle depth 0 with a
plain evaluation loop and positive depth with the recursive loop that returns
immediately on a checkmate child, records a stalemate child as score 0 only
when the running best is on the losing side of 0, and otherwise recurses.
The embedding splits each Go `for` loop into its own list recursion; `rec` is
the one-level-deeper search. -/

/-- The depth-0 loop of `max` in `minmax.go`. -/
def mmLeafMax {Extra : Type} (E : Engine Extra) (ev : Position Extra → ℚ) (p : Position Extra) :
    List Move → Move × ℚ → Move × ℚ
  | [], acc => acc
  | move :: rest, (bestMove, highestScore) =>
    let score := ev (E.applyMove p move)
    if score > highestScore then mmLeafMax E ev p rest (move, score)
    else mmLeafMax E ev p rest (bestMove, highestScore)

/-- The depth-0 loop of `min` in `minmax.go`. -/
def mmLeafMin {Extra : Type} (E : Engine Extra) (ev : Position Extra → ℚ) (p : Position Extra) :
    List Move → Move × ℚ → Move × ℚ
  | [], acc => acc
  | move :: rest, (bestMove, lowestScore) =>
    let score := ev (E.applyMove p move)
    if score < lowestScore then mmLeafMin E ev p rest (move, score)
    else mmLeafMin E ev p rest (bestMove, lowestScore)

/-- The positive-depth loop of `max` in `minmax.go`. -/
def mmMaxLoop {Extra : Type} (E : Engine Extra) (rec : Position Extra → Move × ℚ)
    (p : Position Extra) : List Move → Move × ℚ → Move × ℚ
  | [], acc => acc
  | move :: rest, (bestMove, highestScore) =>
    let newPos := E.applyMove p move
    if E.isCheckMate newPos then (move, maxFloat)
    else if E.isStaleMate newPos ∧ highestScore < 0 then mmMaxLoop E rec p rest (move, 0)
    else
      let score := (rec newPos).2
      if score > highestScore then mmMaxLoop E rec p rest (move, score)
      else mmMaxLoop E rec p rest (bestMove, highestScore)

/-- The positive-depth loop of `min` in `minmax.go`. -/
def mmMinLoop {Extra : Type} (E : Engine Extra) (rec : Position Extra → Move × ℚ)
    (p : Position Extra) : List Move → Move × ℚ → Move × ℚ
  | [], acc => acc
  | move :: rest, (bestMove, lowestScore) =>
    let newPos := E.applyMove p move
    if E.isCheckMate newPos then (move, -maxFloat)
    else if E.isStaleMate newPos ∧ lowestScore > 0 then mmMinLoop E rec p rest (move, 0)
    else
      let score := (rec newPos).2
      if score < lowestScore then mmMinLoop E rec p rest (move, score)
      else mmMinLoop E rec p rest (bestMove, lowestScore)

/-- `search`/`max`/`min` from `minmax.go`, parameterized by the evaluator:
returns the selected move and its score.  A position whose turn is neither
White nor Black yields `(Move{}, 0)` as in `search`. -/
def mmSearch {Extra : Type} (E : Engine Extra) (ev : Position Extra → ℚ) :
    Nat → Position Extra → Move × ℚ
  | 0, p =>
    if p.turn = .white then mmLeafMax E ev p (E.legalMoves p) (nullMove, -maxFloat)
    else if p.turn = .black then mmLeafMin E ev p (E.legalMoves p) (nullMove, maxFloat)
    else (nullMove, 0)
  | d + 1, p =>
    if p.turn = .white then mmMaxLoop E (mmSearch E ev d) p (E.legalMoves p) (nullMove, -maxFloat)
    else if p.turn = .black then mmMinLoop E (mmSearch E ev d) p (E.legalMoves p) (nullMove, maxFloat)
    else (nullMove, 0)

/-- `Minmax.GetMove`: run `search` with the package's own evaluator at the
configured depth and return the move. -/
def minmaxGetMove {Extra : Type} (E : Engine Extra) (fuel depth : Nat) (p : Position Extra) :
    Move :=
  (mmSearch E (evalMinmax E fuel) depth p).1

/-! ## Alpha-beta search (`alphabeta.go`)

Same shape as minmax but threading `alpha`/`beta`: the maximizer breaks out
of its loop when the running best exceeds `beta` and tightens `alpha`; the
minimizer breaks when the running best falls below `alpha` and tightens
`beta`.  Depth-0 loops break on the same conditions.  The running `alpha`
(resp. `beta`) travels in the loop accumulator. -/

/-- The depth-0 loop of `max` in `alphabeta.go` (breaks when the running best
exceeds `beta`). -/
def abLeafMax {Extra : Type} (E : Engine Extra) (ev : Position Extra → ℚ) (p : Position Extra)
    (beta : ℚ) : List Move → Move × ℚ → Move × ℚ
  | [], acc => acc
  | move :: rest, (bestMove, highestScore) =>
    let score := ev (E.applyMove p move)
    let acc := if score > highestScore then (move, score) else (bestMove, highestScore)
    if acc.2 > beta then acc else abLeafMax E ev p beta rest acc

/-- The depth-0 loop of `min` in `alphabeta.go` (breaks when the running best
falls below `alpha`). -/
def abLeafMin {Extra : Type} (E : Engine Extra) (ev : Position Extra → ℚ) (p : Position Extra)
    (alpha : ℚ) : List Move → Move × ℚ → Move × ℚ
  | [], acc => acc
  | move :: rest, (bestMove, lowestScore) =>
    let score := ev (E.applyMove p move)
    let acc := if score < lowestScore then (move, score) else (bestMove, lowestScore)
    if acc.2 < alpha then acc else abLeafMin E ev p alpha rest acc

/-- The positive-depth loop of `max` in `alphabeta.go`; the accumulator
carries `(bestMove, highestScore, alpha)`. -/
def abMaxLoop {Extra : Type} (E : Engine Extra) (rec : Position Extra → ℚ → ℚ → Move × ℚ)
    (p : Position Extra) (beta : ℚ) : List Move → Move × ℚ × ℚ → Move × ℚ
  | [], (bestMove, highestScore, _) => (bestMove, highestScore)
  | move :: rest, (bestMove, highestScore, alpha) =>
    let newPos := E.applyMove p move
    if E.isCheckMate newPos then (move, maxFloat)
    else if E.isStaleMate newPos ∧ highestScore < 0 then
      abMaxLoop E rec p beta rest (move, 0, alpha)
    else
      let score := (rec newPos alpha beta).2
      let acc := if score > highestScore then (move, score) else (bestMove, highestScore)
      if acc.2 > beta then acc
      else abMaxLoop E rec p beta rest (acc.1, acc.2, if acc.2 > alpha then acc.2 else alpha)

/-- The positive-depth loop of `min` in `alphabeta.go`; the accumulator
carries `(bestMove, lowestScore, beta)`. -/
def abMinLoop {Extra : Type} (E : Engine Extra) (rec : Position Extra → ℚ → ℚ → Move × ℚ)
    (p : Position Extra) (alpha : ℚ) : List Move → Move × ℚ × ℚ → Move × ℚ
  | [], (bestMove, lowestScore, _) => (bestMove, lowestScore)
  | move :: rest, (bestMove, lowestScore, beta) =>
    let newPos := E.applyMove p move
    if E.isCheckMate newPos then (move, -maxFloat)
    else if E.isStaleMate newPos ∧ lowestScore > 0 then
      abMinLoop E rec p alpha rest (move, 0, beta)
    else
      let score := (rec newPos alpha beta).2
      let acc := if score < lowestScore then (move, score) else (bestMove, lowestScore)
      if acc.2 < alpha then acc
      else abMinLoop E rec p alpha rest (acc.1, acc.2, if acc.2 < beta then acc.2 else beta)

/-- `search`/`max`/`min` from `alphabeta.go`, parameterized by the
evaluator. -/
def abSearch {Extra : Type} (E : Engine Extra) (ev : Position Extra → ℚ) :
    Nat → Position Extra → ℚ → ℚ → Move × ℚ
  | 0, p, alpha, beta =>
    if p.turn = .white then abLeafMax E ev p beta (E.legalMoves p) (nullMove, -maxFloat)
    else if p.turn = .black then abLeafMin E ev p alpha (E.legalMoves p) (nullMove, maxFloat)
    else (nullMove, 0)
  | d + 1, p, alpha, beta =>
    if p.turn = .white then
      abMaxLoop E (abSearch E ev d) p beta (E.legalMoves p) (nullMove, -maxFloat, alpha)
    else if p.turn = .black then
      abMinLoop E (abSearch E ev d) p alpha (E.legalMoves p) (nullMove, maxFloat, beta)
    else (nullMove, 0)

/-- `AlphaBeta.GetMove`: run `search` with the full window
`(-MaxFloat64, MaxFloat64)` and the package's evaluator. -/
def alphaBetaGetMove {Extra : Type} (E : Engine Extra) (depth : Nat) (p : Position Extra) :
    Move :=
  (abSearch E (evalAlphaBeta E) depth p (-maxFloat) maxFloat).1

/-! ## MCTS (both `mcts` package variants)

The `node` struct, `selectNode`, `fillInChildren`, `calcUCB` and `iterate`
are textually identical in the parallel-root and the single-tree variant, so
they are embedded once; the two variants differ in their `randomRollout`
(20-ply cap with a material fallback vs 50-ply cap returning 0.5) and in
`GetMove`.

`math.Sqrt`/`math.Log` are opaque float routines; they enter only through
the UCB1 formula, so the embedding abstracts them as a `FloatOps` record.
`rand.IntN k` (for `k > 0`) is modelled by `rng i % k` for a draw stream
`rng : Nat → Nat` — every sequence of in-range draws is realizable.

`iterate` recurses along a branch of the finite tree; the embedding makes
the recursion-depth bound explicit as `fuel` (any fuel at least the tree
height reproduces the Go run; `fuel = 0` returns the node unchanged with
result 0 and is unreachable with sufficient fuel). -/

/-- Draw stream standing for `math/rand/v2`: the `i`-th call of
`rand.IntN k` during one rollout yields `rng i % k`. -/
abbrev RNG := Nat → Nat

/-- The opaque float routines `math.Sqrt` and `math.Log` used by `calcUCB`. -/
structure FloatOps where
  sqrt : ℚ → ℚ
  log : ℚ → ℚ

/-- The `node` struct of the `mcts` package: cumulative reward `w`, visit
count `n`, the producing move, the position snapshot and the child list. -/
inductive SNode (Extra : Type) : Type where
  | mk (w : ℚ) (n : Nat) (mov : Move) (pos : Position Extra)
      (children : List (SNode Extra)) : SNode Extra

namespace SNode

/-- The `w` (cumulative reward) field. -/
def w {Extra : Type} : SNode Extra → ℚ
  | mk w _ _ _ _ => w

/-- The `n` (visit count) field; Go `int64`, only ever incremented. -/
def n {Extra : Type} : SNode Extra → Nat
  | mk _ n _ _ _ => n

/-- The `mov` field: the move that produced this node. -/
def mov {Extra : Type} : SNode Extra → Move
  | mk _ _ m _ _ => m

/-- The `pos` field: the node's position snapshot. -/
def pos {Extra : Type} : SNode Extra → Position Extra
  | mk _ _ _ p _ => p

/-- The `children` field. -/
def children {Extra : Type} : SNode Extra → List (SNode Extra)
  | mk _ _ _ _ c => c

end SNode

/-- `calcUCB`: `w/n + sqrt(2) * sqrt(ln(N)/n)` where `N` is the searcher's
global iteration counter `mcts.n`. -/
def calcUCB {Extra : Type} (ops : FloatOps) (gN : Nat) (nd : SNode Extra) : ℚ :=
  nd.w / (nd.n : ℚ) + ops.sqrt 2 * ops.sqrt (ops.log (gN : ℚ) / (nd.n : ℚ))

/-- The UCB1 argmax loop of `selectNode`: start from `children[0]` with
running maximum `-MaxFloat64` and keep the first strict improvement.
Returns the index of the chosen child. -/
def ucbArgmax {Extra : Type} (ops : FloatOps) (gN : Nat) (children : List (SNode Extra)) : Nat :=
  go children 0 (-maxFloat) 0
where
  go : List (SNode Extra) → Nat → ℚ → Nat → Nat
    | [], _, _, best => best
    | c :: rest, i, maxUCB, best =>
      let ucb := calcUCB ops gN c
      if ucb > maxUCB then go rest (i + 1) ucb i else go rest (i + 1) maxUCB best

/-- The first scan of `selectNode`: the index of the first child with zero
visits, in generation order. -/
def firstZeroIdx {Extra : Type} : List (SNode Extra) → Option Nat
  | [] => none
  | c :: rest => if c.n = 0 then some 0 else (firstZeroIdx rest).map (· + 1)

/-- `selectNode` (as the index of the selected child): the first child with
zero visits if any exists, else the UCB1 argmax. -/
def selectIdx {Extra : Type} (ops : FloatOps) (gN : Nat) (children : List (SNode Extra)) : Nat :=
  match firstZeroIdx children with
  | some i => i
  | none => ucbArgmax ops gN children

/-- `fillInChildren`: append one fresh zero-statistics child per legal move
of the node's position. -/
def fillInChildren {Extra : Type} (E : Engine Extra) (nd : SNode Extra) : SNode Extra :=
  SNode.mk nd.w nd.n nd.mov nd.pos
    (nd.children ++ (E.legalMoves nd.pos).map (fun m =>
      SNode.mk 0 0 m (E.applyMove nd.pos m) []))

/-- `getPositionValue` from the parallel-root `mcts` variant: signed material
sum over the board. -/
def getPositionValue {Extra : Type} (p : Position Extra) : ℚ :=
  p.board.foldl
    (fun totalValue piece =>
      let val : ℚ :=
        match piece.type with
        | .pawn => 1
        | .rook => 5
        | .knight => 29 / 10
        | .bishop => 3
        | .queen => 8
        | .king => 10000
        | .noType => 0
      if piece.color = .white then totalValue + val
      else if piece.color = .black then totalValue - val
      else totalValue)
    0

/-- `determineReward` from the parallel-root `mcts` variant: the material
fallback used when the 20-ply rollout cap is reached. -/
def determineReward {Extra : Type} (p : Position Extra) (agentColor : Color) : ℚ :=
  let positionValue := getPositionValue p
  match agentColor with
  | .white =>
    if positionValue > 8 then 1 else if positionValue < -8 then 0 else 1 / 2
  | .black =>
    if positionValue > 8 then 0 else if positionValue < -8 then 1 else 1 / 2
  | .noColor => 1 / 2

/-- The shared loop of both `randomRollout` variants, with the remaining ply
budget as `fuel` and `base` applied when the cap is reached; `i` indexes the
draw stream. -/
def rolloutGo {Extra : Type} (E : Engine Extra) (agentColor : Color) (rng : RNG)
    (base : Position Extra → ℚ) : Nat → Nat → Position Extra → ℚ
  | 0, _, p => base p
  | fuel + 1, i, p =>
    if E.isCheckMate p ∧ p.turn ≠ agentColor then 1
    else if E.isCheckMate p ∧ p.turn = agentColor then 0
    else
      let legalMoves := E.legalMoves p
      if legalMoves = [] then 1 / 2
      else
        let move := legalMoves.getD (rng i % legalMoves.length) nullMove
        rolloutGo E agentColor rng base fuel (i + 1) (E.applyMove p move)

/-- `randomRollout` of the parallel-root variant: 20-ply cap, then
`determineReward`. -/
def randomRolloutA {Extra : Type} (E : Engine Extra) (p : Position Extra)
    (agentColor : Color) (rng : RNG) : ℚ :=
  rolloutGo E agentColor rng (fun q => determineReward q agentColor) 20 0 p

/-- `randomRollout` of the single-tree variant: 50-ply cap, then a flat
0.5. -/
def randomRolloutB {Extra : Type} (E : Engine Extra) (p : Position Extra)
    (agentColor : Color) (rng : RNG) : ℚ :=
  rolloutGo E agentColor rng (fun _ => 1 / 2) 50 0 p

/-- `Mcts.iterate` (identical in both variants), parameterized by the
variant's rollout.  A terminal node increments its own counters and returns
1 or 0; otherwise children are filled in if absent, a child is selected, a
rollout is run (from the *parent's* position, as in the source) if the child
is unvisited or the recursion descends, and finally the selected child
receives `n += 1`, `w += result`.  Returns the updated node and the result
being back-propagated. -/
def iterateF {Extra : Type} (E : Engine Extra) (ops : FloatOps) (gN : Nat) (agentColor : Color)
    (rollout : Position Extra → RNG → ℚ) (rng : RNG) :
    Nat → SNode Extra → SNode Extra × ℚ
  | 0, nd => (nd, 0)
  | fuel + 1, nd =>
    if E.isCheckMate nd.pos ∧ nd.pos.turn ≠ agentColor then
      (SNode.mk (nd.w + 1) (nd.n + 1) nd.mov nd.pos nd.children, 1)
    else if E.isStaleMate nd.pos ∨ E.isCheckMate nd.pos then
      (SNode.mk nd.w (nd.n + 1) nd.mov nd.pos nd.children, 0)
    else
      let nd1 := if nd.children.isEmpty then fillInChildren E nd else nd
      let i := selectIdx ops gN nd1.children
      let sel := nd1.children.getD i (SNode.mk 0 0 nullMove nd1.pos [])
      if sel.n = 0 then
        let result := rollout nd1.pos rng
        (SNode.mk nd1.w nd1.n nd1.mov nd1.pos
          (nd1.children.set i (SNode.mk (sel.w + result) (sel.n + 1) sel.mov sel.pos sel.children)),
          result)
      else
        let rec' := iterateF E ops gN agentColor rollout rng fuel sel
        (SNode.mk nd1.w nd1.n nd1.mov nd1.pos
          (nd1.children.set i
            (SNode.mk (rec'.1.w + rec'.2) (rec'.1.n + 1) rec'.1.mov rec'.1.pos rec'.1.children)),
          rec'.2)

/-- The root node built by the single-tree `Mcts.GetMove`: zero statistics,
null move, empty children. -/
def freshRoot {Extra : Type} (p : Position Extra) : SNode Extra :=
  SNode.mk 0 0 nullMove p []

/-- The iteration loop of the single-tree `Mcts.GetMove`: run `k` top-level
calls of `iterate` on the root, the `j`-th with global counter `j` and draw
stream `rngs j` (the time-bounded batching only determines `k`). -/
def runIters {Extra : Type} (E : Engine Extra) (ops : FloatOps) (agentColor : Color)
    (rollout : Position Extra → RNG → ℚ) (rngs : Nat → RNG) (fuel : Nat) :
    Nat → Nat → SNode Extra → SNode Extra
  | _, 0, nd => nd
  | j, k + 1, nd =>
    runIters E ops agentColor rollout rngs fuel (j + 1) k
      (iterateF E ops j agentColor rollout (rngs j) fuel nd).1

/-- One pass of the loop body of `concurrentIterate` (parallel-root variant):
the per-root-child goroutine adds the iteration result to its subtree root's
`w` and increments its `n` on top of `iterate`'s own updates. -/
def concurrentIterateStep {Extra : Type} (E : Engine Extra) (ops : FloatOps) (mctsN : Nat)
    (agentColor : Color) (rollout : Position Extra → RNG → ℚ) (rng : RNG) (fuel : Nat)
    (nd : SNode Extra) : SNode Extra :=
  let res := iterateF E ops mctsN agentColor rollout rng fuel nd
  SNode.mk (res.1.w + res.2) (res.1.n + 1) res.1.mov res.1.pos res.1.children

mutual

/-- Well-formedness of a search tree: every node satisfies
`0 ≤ w ∧ w ≤ n`. -/
def goodB {Extra : Type} : SNode Extra → Bool
  | .mk w n _ _ children =>
    decide (0 ≤ w) && decide (w ≤ (n : ℚ)) && goodListB children

/-- `goodB` on a list of subtrees. -/
def goodListB {Extra : Type} : List (SNode Extra) → Bool
  | [] => true
  | c :: rest => goodB c && goodListB rest

end

mutual

/-- Visit counts never decrease: node-wise `n ≤ n'` between a tree and an
evolved copy of it (children may be appended, existing ones evolve in
place). -/
def nGrowsB {Extra : Type} : SNode Extra → SNode Extra → Bool
  | .mk _ n _ _ cs, .mk _ n' _ _ cs' => decide (n ≤ n') && nGrowsListB cs cs'

/-- `nGrowsB` position-wise on child lists; the evolved list may be longer. -/
def nGrowsListB {Extra : Type} : List (SNode Extra) → List (SNode Extra) → Bool
  | [], _ => true
  | _ :: _, [] => false
  | c :: cs, c' :: cs' => nGrowsB c c' && nGrowsListB cs cs'

end

/-! ## The harness (`main.go`)

The game loop runs while the game is neither checkmate nor a claimable
draw; each pass asks the agent of the side to move for a move and applies
it through the rules engine, bailing out if the application fails.  The
distinct program terminations and the exit code `main` passes to
`os.Exit` at each of them are transcribed below. -/

/-- The ways `main`/`parseArgs` terminate the process. -/
inductive HarnessOutcome where
  /-- Loop left with `game.IsCheckMate()`: prints the winner, `os.Exit(0)`. -/
  | checkmateEnd
  /-- Loop left with `game.CanClaimDraw()`: prints the draw notice,
  `os.Exit(1)`. -/
  | drawClaim
  /-- `game.Move(move) != nil`: "agent provided invalid move",
  `os.Exit(1)`. -/
  | invalidAgentMove
  /-- `parseArgs` could not parse `-p1`/`-p2`: `os.Exit(1)`. -/
  | invalidConfig
  /-- `game.Turn()` neither White nor Black: `os.Exit(1)`. -/
  | badTurn
  /-- Loop left with neither checkmate nor claimable draw: `os.Exit(1)`. -/
  | noEnd
deriving DecidableEq, Repr

/-- The exit code `main.go` passes to `os.Exit` for each termination. -/
def exitCode : HarnessOutcome → Nat
  | .checkmateEnd => 0
  | .drawClaim => 1
  | .invalidAgentMove => 1
  | .invalidConfig => 1
  | .badTurn => 1
  | .noEnd => 1

/-- The game-state interface `main` uses: terminal tests, side to move, the
two configured agents, and fallible move application (`game.Move` returns an
error on an illegal move, modelled by `none`). -/
structure Harness (S : Type) where
  isCheckMate : S → Bool
  canClaimDraw : S → Bool
  turn : S → Color
  agentWhite : S → Move
  agentBlack : S → Move
  applyMove : S → Move → Option S

/-- The `main` loop: while neither checkmate nor claimable draw, ask the
agent of the side to move and apply its move; afterwards dispatch on the
terminal condition exactly as the post-loop code does.  `fuel` bounds the
number of loop passes (the Go loop is unbounded; `noEnd` on exhausted fuel
stands for a run still in progress). -/
def gameLoop {S : Type} (G : Harness S) : Nat → S → HarnessOutcome
  | 0, _ => .noEnd
  | fuel + 1, s =>
    if G.isCheckMate s || G.canClaimDraw s then
      if G.isCheckMate s then .checkmateEnd
      else if G.canClaimDraw s then .drawClaim
      else .noEnd
    else
      match
        (match G.turn s with
         | .white => some (G.agentWhite s)
         | .black => some (G.agentBlack s)
         | .noColor => none) with
      | none => .badTurn
      | some mv =>
        match G.applyMove s mv with
        | none => .invalidAgentMove
        | some s' => gameLoop G fuel s'

/-! ## Concrete instances used by the counterexamples and witnesses

Tiny rules engines over `Extra := Unit`.  The searches and the MCTS loop are
functions of an abstract engine because the real rules engine is the
external `chess` package; each instance below realizes one behavior pattern
the abstract functions are exercised on. -/

/-- A throwaway position for witnesses. -/
def posU : Position Unit := ⟨.white, [], ()⟩

/-- A board whose two entries are the black king (square 0) and the white
king (square 1): zero total material. -/
def kingsBoard : List Piece := [⟨.black, .king⟩, ⟨.white, .king⟩]

/-- C1 engine: from `cexRoot` (White to move) a single legal move leads to
`cexChild`, which has no legal moves but one pseudo-legal move onto the
black king's square when White is forced to move.  The two evaluators then
disagree on `cexChild`: threat-count gives 0.2, static-exchange gives 0. -/
def cexRoot : Position Unit := ⟨.white, kingsBoard, ()⟩

/-- The single successor of `cexRoot` in `evalGapEngine`. -/
def cexChild : Position Unit := ⟨.black, kingsBoard, ()⟩

/-- See `cexRoot`. -/
def evalGapEngine : Engine Unit where
  legalMoves p := if p = cexRoot then [⟨5, 5, .noType⟩] else []
  pseudoLegalMoves p := if p.turn = .white then [⟨1, 0, .noType⟩] else []
  applyMove p _ := if p = cexRoot then cexChild else p
  isCheckMate _ := false
  isStaleMate _ := false
  pieceAt p sq := p.board.getD sq default
  allSquares := [0, 1]

/-- C2 engine: `forcedRoot` (White) has the single legal move `forcedMove`
to `forcedMid` (Black), whose only move mates White (`matePos`). -/
def forcedRoot : Position Unit := ⟨.white, [], ()⟩

/-- The position after White's forced move in `forcedMateEngine`. -/
def forcedMid : Position Unit := ⟨.black, [], ()⟩

/-- The checkmate position (White to move, mated) in `forcedMateEngine`. -/
def matePos : Position Unit := ⟨.white, [⟨.white, .king⟩], ()⟩

/-- White's only legal move in `forcedRoot`. -/
def forcedMove : Move := ⟨1, 2, .noType⟩

/-- See `forcedRoot`. -/
def forcedMateEngine : Engine Unit where
  legalMoves p := if p = forcedRoot then [forcedMove]
                  else if p = forcedMid then [⟨3, 4, .noType⟩] else []
  pseudoLegalMoves _ := []
  applyMove p _ := if p = forcedRoot then forcedMid
                   else if p = forcedMid then matePos else p
  isCheckMate p := p = matePos
  isStaleMate _ := false
  pieceAt p sq := p.board.getD sq default
  allSquares := []

/-- C3 engine: the root `mctsRoot` (White) has a single legal move to
`mctsMate`, a checkmate with Black to move (the agent delivered mate). -/
def mctsRoot : Position Unit := ⟨.white, [], ()⟩

/-- The terminal (checkmate, Black to move) root child of `terminalChildEngine`. -/
def mctsMate : Position Unit := ⟨.black, [], ()⟩

/-- See `mctsRoot`. -/
def terminalChildEngine : Engine Unit where
  legalMoves p := if p = mctsRoot then [⟨2, 3, .noType⟩] else []
  pseudoLegalMoves _ := []
  applyMove p _ := if p = mctsRoot then mctsMate else p
  isCheckMate p := p = mctsMate
  isStaleMate _ := false
  pieceAt p sq := p.board.getD sq default
  allSquares := []

/-- An engine with no terminal positions at all: every position has one
legal move that leaves it unchanged. -/
def loopEngine : Engine Unit where
  legalMoves _ := [⟨6, 7, .noType⟩]
  pseudoLegalMoves _ := []
  applyMove p _ := p
  isCheckMate _ := false
  isStaleMate _ := false
  pieceAt p sq := p.board.getD sq default
  allSquares := []

/-- A position whose material value is exactly +8: one white queen. -/
def queenUpPos : Position Unit := ⟨.white, [⟨.white, .queen⟩], ()⟩

/-- Trivial float routines for instantiating `FloatOps` in concrete runs
whose control flow does not depend on UCB values. -/
def zeroOps : FloatOps := ⟨fun _ => 0, fun _ => 0⟩

/-- The constant draw stream. -/
def zeroRngs : Nat → RNG := fun _ _ => 0

/-- C9 harness instance: a claimable draw from the start. -/
def drawHarness : Harness Unit where
  isCheckMate _ := false
  canClaimDraw _ := true
  turn _ := .white
  agentWhite _ := nullMove
  agentBlack _ := nullMove
  applyMove _ _ := none

/-- C9 harness instance: the White agent's first move is rejected by
`game.Move`. -/
def badMoveHarness : Harness Unit where
  isCheckMate _ := false
  canClaimDraw _ := false
  turn _ := .white
  agentWhite _ := nullMove
  agentBlack _ := nullMove
  applyMove _ _ := none

/-- The trajectory of the rollout loop: the position after `k` random moves
(draws indexed from `i`), with no terminal exits.  Used to state what the
20-ply rollout returns when the cap is reached. -/
def playout {Extra : Type} (E : Engine Extra) (rng : RNG) :
    Nat → Nat → Position Extra → Position Extra
  | 0, _, p => p
  | k + 1, i, p =>
    let legalMoves := E.legalMoves p
    playout E rng k (i + 1) (E.applyMove p (legalMoves.getD (rng i % legalMoves.length) nullMove))

/-- A two-child list whose second child is the only unvisited one (first
child visited once). -/
def demoChildren : List (SNode Unit) :=
  [SNode.mk 1 1 nullMove posU [], SNode.mk 0 0 nullMove posU []]

/-! ## Theorems -/

theorem maxFloat_pos : 0 < maxFloat := by norm_num [maxFloat]

@[simp]
theorem SNode.w_mk {Extra : Type} (w : ℚ) (n : Nat) (mov : Move) (pos : Position Extra)
    (ch : List (SNode Extra)) : (SNode.mk w n mov pos ch).w = w := rfl

@[simp]
theorem SNode.n_mk {Extra : Type} (w : ℚ) (n : Nat) (mov : Move) (pos : Position Extra)
    (ch : List (SNode Extra)) : (SNode.mk w n mov pos ch).n = n := rfl

@[simp]
theorem SNode.mov_mk {Extra : Type} (w : ℚ) (n : Nat) (mov : Move) (pos : Position Extra)
    (ch : List (SNode Extra)) : (SNode.mk w n mov pos ch).mov = mov := rfl

@[simp]
theorem SNode.pos_mk {Extra : Type} (w : ℚ) (n : Nat) (mov : Move) (pos : Position Extra)
    (ch : List (SNode Extra)) : (SNode.mk w n mov pos ch).pos = pos := rfl

@[simp]
theorem SNode.children_mk {Extra : Type} (w : ℚ) (n : Nat) (mov : Move) (pos : Position Extra)
    (ch : List (SNode Extra)) : (SNode.mk w n mov pos ch).children = ch := rfl

/-- C10: the Alpha-Beta evaluator leaves its input position unchanged:
`numPseudoLegalChecks` restores the original side to move before returning,
so `evaluate` hands back the position (turn and board included) exactly as
it was on entry, for every rules engine and every position. -/
theorem evaluate_preserves_position {Extra : Type} (E : Engine Extra) (p : Position Extra) :
    (numPseudoLegalChecks E p).2 = p ∧ (evaluateAlphaBetaSt E p).2 = p := by
  cases p
  exact ⟨rfl, rfl⟩

/-- `determineReward` only ever produces 0, 0.5 or 1. -/
theorem determineReward_cases {Extra : Type} (p : Position Extra) (agentColor : Color) :
    determineReward p agentColor = 0 ∨ determineReward p agentColor = 1 / 2 ∨
      determineReward p agentColor = 1 := by
  unfold determineReward
  cases agentColor with
  | white => dsimp only; split_ifs <;> simp
  | black => dsimp only; split_ifs <;> simp
  | noColor => simp

/-- The rollout loop only ever produces 0, 0.5, 1 or a value of its
cap-reached base case. -/
theorem rolloutGo_cases {Extra : Type} (E : Engine Extra) (agentColor : Color) (rng : RNG)
    (base : Position Extra → ℚ)
    (hbase : ∀ q, base q = 0 ∨ base q = 1 / 2 ∨ base q = 1) :
    ∀ (fuel i : Nat) (p : Position Extra),
      rolloutGo E agentColor rng base fuel i p = 0 ∨
        rolloutGo E agentColor rng base fuel i p = 1 / 2 ∨
        rolloutGo E agentColor rng base fuel i p = 1 := by
  intro fuel
  induction fuel with
  | zero => intro i p; exact hbase p
  | succ f ih =>
    intro i p
    simp only [rolloutGo]
    split_ifs with h1 h2 h3
    · right; right; rfl
    · left; rfl
    · right; left; rfl
    · exact ih (i + 1) _

/-- C5: every rollout result — the parallel-root variant's 20-ply
`randomRollout` with its `determineReward` material fallback, and the
single-tree variant's 50-ply `randomRollout` — is exactly one of
0, 0.5, 1, for every engine, position, agent color and random stream. -/
theorem rollout_reward_domain {Extra : Type} (E : Engine Extra) (p : Position Extra)
    (agentColor : Color) (rng : RNG) :
    (randomRolloutA E p agentColor rng = 0 ∨ randomRolloutA E p agentColor rng = 1 / 2 ∨
      randomRolloutA E p agentColor rng = 1) ∧
    (randomRolloutB E p agentColor rng = 0 ∨ randomRolloutB E p agentColor rng = 1 / 2 ∨
      randomRolloutB E p agentColor rng = 1) ∧
    (determineReward p agentColor = 0 ∨ determineReward p agentColor = 1 / 2 ∨
      determineReward p agentColor = 1) := by
  refine ⟨?_, ?_, determineReward_cases p agentColor⟩
  · exact rolloutGo_cases E agentColor rng _ (fun q => determineReward_cases q agentColor) 20 0 p
  · exact rolloutGo_cases E agentColor rng _ (fun _ => by norm_num) 50 0 p

/-- On an engine without checkmates, without move-less positions and whose
move application is the identity, a rollout always ends at its cap-reached
base case on the unchanged position. -/
theorem rolloutGo_fixpoint {Extra : Type} (E : Engine Extra) (agentColor : Color) (rng : RNG)
    (base : Position Extra → ℚ)
    (hmate : ∀ q, E.isCheckMate q = false) (hlegal : ∀ q, E.legalMoves q ≠ [])
    (hfix : ∀ q m, E.applyMove q m = q) :
    ∀ (fuel i : Nat) (p : Position Extra), rolloutGo E agentColor rng base fuel i p = base p := by
  intro fuel
  induction fuel with
  | zero => intro i p; rfl
  | succ f ih =>
    intro i p
    simp only [rolloutGo, hmate, Bool.false_eq_true, false_and, if_false, hlegal, ite_false,
      hfix]
    exact ih (i + 1) p

/-- C6 counterexample: a position exactly one queen (material 8) up for the
agent.  The claim says a material difference of magnitude ≥ 8 in the agent's
favor yields reward 1 at the rollout cap; the code compares strictly, so the
20-ply rollout (here on an engine with no terminal positions, so the cap is
reached) returns 0.5, not 1. -/
theorem determineReward_boundary_cex :
    getPositionValue queenUpPos = 8 ∧
      randomRolloutA loopEngine queenUpPos .white (fun _ => 0) = 1 / 2 ∧
      ((1 : ℚ) / 2) ≠ 1 := by
  have h8 : getPositionValue queenUpPos = 8 := by norm_num [getPositionValue, queenUpPos]
  refine ⟨h8, ?_, by norm_num⟩
  have hfix := rolloutGo_fixpoint loopEngine .white (fun _ => 0)
    (fun q => determineReward q .white) (fun _ => rfl) (fun q => by simp [loopEngine])
    (fun _ _ => rfl) 20 0 queenUpPos
  rw [randomRolloutA, hfix]
  norm_num [determineReward, h8]

/-- C6 amended: `randomRollout` (variant A), when the 20-ply cap is reached
without a terminal state, returns 1 for the agent iff the material
difference in the agent's favor is strictly greater than 8, 0 iff it is
strictly less than −8, and 0.5 otherwise; and on an engine without
checkmates and without move-less positions the rollout indeed returns the
material fallback of the 20-step playout endpoint. -/
theorem determineReward_amended :
    (∀ (Extra : Type) (p : Position Extra),
      (determineReward p .white = 1 ↔ 8 < getPositionValue p) ∧
      (determineReward p .white = 0 ↔ getPositionValue p < -8) ∧
      (determineReward p .black = 1 ↔ getPositionValue p < -8) ∧
      (determineReward p .black = 0 ↔ 8 < getPositionValue p)) ∧
    (∀ (Extra : Type) (E : Engine Extra) (agentColor : Color) (rng : RNG) (p : Position Extra),
      (∀ q, E.isCheckMate q = false) → (∀ q, E.legalMoves q ≠ []) →
      randomRolloutA E p agentColor rng = determineReward (playout E rng 20 0 p) agentColor) := by
  constructor
  · intro Extra p
    unfold determineReward
    dsimp only
    refine ⟨?_, ?_, ?_, ?_⟩ <;> split_ifs with h1 h2 <;>
      constructor <;> intro h <;> first | linarith | norm_num at h
  · intro Extra E agentColor rng p hmate hlegal
    unfold randomRolloutA
    have main : ∀ (fuel i : Nat) (q : Position Extra),
        rolloutGo E agentColor rng (fun r => determineReward r agentColor) fuel i q =
          determineReward (playout E rng fuel i q) agentColor := by
      intro fuel
      induction fuel with
      | zero => intro i q; rfl
      | succ f ih =>
        intro i q
        simp only [rolloutGo, playout, hmate q, false_and, if_false, hlegal q, ite_false]
        exact ih (i + 1) _
    exact main 20 0 p

/-- Witness for `determineReward_amended` at the loop engine. -/
theorem determineReward_amended_witness :
    randomRolloutA loopEngine posU .white (fun _ => 0) =
      determineReward (playout loopEngine (fun _ => 0) 20 0 posU) .white :=
  determineReward_amended.2 Unit loopEngine .white (fun _ => 0) posU
    (fun _ => rfl) (fun _ => by simp [loopEngine])

/-- C9 counterexample: a claimed draw and a rejected agent move terminate the
harness with the same exit code 1, so the three outcome classes do not get
pairwise distinct codes. -/
theorem harness_exit_code_cex :
    gameLoop drawHarness 1 () = .drawClaim ∧
      gameLoop badMoveHarness 1 () = .invalidAgentMove ∧
      exitCode .drawClaim = exitCode .invalidAgentMove := by
  exact ⟨by decide, by decide, rfl⟩

/-- C9 amended: the harness leaves its loop as soon as checkmate or a
claimable draw holds; checkmate exits with code 0, distinct from every
failure code, but a claimed draw, an invalid agent move and an invalid
configuration all share exit code 1. -/
theorem harness_exit_codes_amended :
    exitCode .checkmateEnd ≠ exitCode .drawClaim ∧
    exitCode .checkmateEnd ≠ exitCode .invalidAgentMove ∧
    exitCode .checkmateEnd ≠ exitCode .invalidConfig ∧
    exitCode .drawClaim = exitCode .invalidAgentMove ∧
    exitCode .drawClaim = exitCode .invalidConfig ∧
    ∀ (S : Type) (G : Harness S) (fuel : Nat) (s : S),
      (G.isCheckMate s = true ∨ G.canClaimDraw s = true) →
      gameLoop G (fuel + 1) s = (if G.isCheckMate s then .checkmateEnd else .drawClaim) := by
  refine ⟨by decide, by decide, by decide, rfl, rfl, ?_⟩
  intro S G fuel s h
  have hcond : (G.isCheckMate s || G.canClaimDraw s) = true := by
    rcases h with h | h <;> simp [h]
  simp only [gameLoop, hcond, if_true]
  rcases hm : G.isCheckMate s with _ | _
  · rcases h with h | h
    · simp [hm] at h
    · simp [hm, h]
  · simp [hm]

/-- Witness for `harness_exit_codes_amended`: the draw harness leaves the
loop at once with the draw outcome. -/
theorem harness_exit_codes_amended_witness :
    gameLoop drawHarness 1 () = (if drawHarness.isCheckMate () then .checkmateEnd else .drawClaim) :=
  harness_exit_codes_amended.2.2.2.2.2 Unit drawHarness 0 () (Or.inr rfl)

/-- `firstZeroIdx` finds the first zero-visit child: its index is in range,
the child there has zero visits, and every earlier child has positive
visits. -/
theorem firstZeroIdx_spec {Extra : Type} :
    ∀ l : List (SNode Extra), (∃ c ∈ l, c.n = 0) →
      ∃ i, firstZeroIdx l = some i ∧ ∃ h : i < l.length,
        (l.get ⟨i, h⟩).n = 0 ∧
        ∀ j (_ : j < i) (h' : j < l.length), (l.get ⟨j, h'⟩).n ≠ 0 := by
  intro l
  induction l with
  | nil => rintro ⟨c, hc, -⟩; simp at hc
  | cons c rest ih =>
    intro hex
    by_cases hc : c.n = 0
    · refine ⟨0, by simp [firstZeroIdx, hc], by simp, hc, ?_⟩
      intro j hj
      omega
    · obtain ⟨c', hmem, hn⟩ := hex
      have hmem' : c' ∈ rest := by
        rcases List.mem_cons.mp hmem with h | h
        · exact absurd (h ▸ hn) hc
        · exact h
      obtain ⟨i, hfz, hlt, hget, hprev⟩ := ih ⟨c', hmem', hn⟩
      refine ⟨i + 1, by simp [firstZeroIdx, hc, hfz], by simpa using hlt, hget, ?_⟩
      intro j hj h'
      match j with
      | 0 => exact hc
      | j + 1 => exact hprev j (by omega) (by simpa using h')

/-- C4: whenever the child list holds at least one child with zero visits,
`selectNode` returns the first such child in generation order — in
particular it never returns a child with positive visits while a zero-visit
sibling exists — for any float routines and any value of the global
iteration counter (the code of `selectNode` is identical in both MCTS
variants). -/
theorem selectNode_prefers_unvisited {Extra : Type} (ops : FloatOps) (gN : Nat)
    (children : List (SNode Extra)) (hex : ∃ c ∈ children, c.n = 0) :
    ∃ h : selectIdx ops gN children < children.length,
      (children.get ⟨selectIdx ops gN children, h⟩).n = 0 ∧
      ∀ j (_ : j < selectIdx ops gN children) (h' : j < children.length),
        (children.get ⟨j, h'⟩).n ≠ 0 := by
  obtain ⟨i, hfz, hlt, hget, hprev⟩ := firstZeroIdx_spec children hex
  have hsel : selectIdx ops gN children = i := by simp [selectIdx, hfz]
  rw [hsel]
  exact ⟨hlt, hget, hprev⟩

/-- Witness for `selectNode_prefers_unvisited` on a two-child list whose
second child is the only unvisited one. -/
theorem selectNode_prefers_unvisited_witness :
    (∃ c ∈ demoChildren, c.n = 0) ∧
      ∃ h : selectIdx zeroOps 3 demoChildren < demoChildren.length,
        (demoChildren.get ⟨selectIdx zeroOps 3 demoChildren, h⟩).n = 0 ∧
        ∀ j (_ : j < selectIdx zeroOps 3 demoChildren) (h' : j < demoChildren.length),
          (demoChildren.get ⟨j, h'⟩).n ≠ 0 := by
  have hex : ∃ c ∈ demoChildren, c.n = 0 := by
    refine ⟨SNode.mk 0 0 nullMove posU [], ?_, rfl⟩
    unfold demoChildren
    exact .tail _ (.head _)
  exact ⟨hex, selectNode_prefers_unvisited zeroOps 3 demoChildren hex⟩

/-- C2 / code bug: on a position with exactly one legal move whose reply
allows a mate in one, depth-2 minmax returns the zero-value `Move{}` and
not the single legal move: the mate score `-MaxFloat64` never strictly
exceeds the initial sentinel `-MaxFloat64`, so `bestMove` is never
assigned.  (Mirrors FEN 8/8/P7/8/8/6q1/5k2/7K w - - 0 1, where White's only
move a6a7 lets Black mate with Qg1#.) -/
theorem minmax_forced_move_null_bug :
    minmaxGetMove forcedMateEngine 64 2 forcedRoot = nullMove ∧
      forcedMateEngine.legalMoves forcedRoot = [forcedMove] ∧
      forcedMove ≠ nullMove := by
  refine ⟨?_, by decide, by decide⟩
  have hlm : forcedMateEngine.legalMoves forcedRoot = [forcedMove] := by decide
  have ham : ∀ m, forcedMateEngine.applyMove forcedRoot m = forcedMid := by
    intro m; simp [forcedMateEngine, forcedRoot, forcedMid]
  have hlm2 : forcedMateEngine.legalMoves forcedMid = [⟨3, 4, .noType⟩] := by decide
  have ham2 : ∀ m, forcedMateEngine.applyMove forcedMid m = matePos := by
    intro m; simp [forcedMateEngine, forcedRoot, forcedMid, matePos]
  have hcm1 : forcedMateEngine.isCheckMate forcedMid = false := by decide
  have hcm2 : forcedMateEngine.isCheckMate matePos = true := by decide
  have hsm : ∀ q, forcedMateEngine.isStaleMate q = false := fun _ => rfl
  have ht1 : forcedRoot.turn = Color.white := rfl
  have ht2 : forcedMid.turn = Color.black := rfl
  have hbw : Color.black ≠ Color.white := by decide
  have hwb : Color.white ≠ Color.black := by decide
  rw [minmaxGetMove]
  norm_num [mmSearch, mmMaxLoop, mmMinLoop, hlm, ham, hlm2, ham2, hcm1, hcm2, hsm, ht1, ht2,
    hbw, hwb]

set_option maxHeartbeats 1600000 in
/-- C1 counterexample: the repository's Alpha-Beta and Minmax packages use
different evaluators (threat-count vs static-exchange), so already at depth
0 on a single-move position their returned scores differ: 0.2 vs 0 here. -/
theorem alphabeta_minmax_score_cex :
    (abSearch evalGapEngine (evalAlphaBeta evalGapEngine) 0 cexRoot (-maxFloat) maxFloat).2 ≠
      (mmSearch evalGapEngine (evalMinmax evalGapEngine 64) 0 cexRoot).2 := by
  have hlm : evalGapEngine.legalMoves cexRoot = [⟨5, 5, .noType⟩] := by decide
  have ham : ∀ m, evalGapEngine.applyMove cexRoot m = cexChild := by
    intro m; simp [evalGapEngine]
  have hlm2 : evalGapEngine.legalMoves cexChild = [] := by decide
  have hps : ∀ q : Position Unit,
      evalGapEngine.pseudoLegalMoves q =
        if q.turn = .white then [⟨1, 0, .noType⟩] else [] := fun _ => rfl
  have hpa : ∀ (q : Position Unit) sq, evalGapEngine.pieceAt q sq = q.board.getD sq default :=
    fun _ _ => rfl
  have hall : evalGapEngine.allSquares = [0, 1] := rfl
  have hb : cexChild.board = kingsBoard := rfl
  have ht : cexChild.turn = Color.black := rfl
  have htr : cexRoot.turn = Color.white := rfl
  have hbw : Color.black ≠ Color.white := by decide
  have hwb : Color.white ≠ Color.black := by decide
  have hsum : sumMaterial cexChild = 0 := by
    norm_num [sumMaterial, hb, kingsBoard, getPieceValue, hbw, hwb]
  have hsa : ∀ (fuel : Nat) (sq : Square), simulateAttacks evalGapEngine fuel cexChild sq = 0 := by
    intro fuel sq
    cases fuel with
    | zero => rfl
    | succ f => simp [simulateAttacks, hlm2, simAttackScan, nullMove]
  have hca : calcAttacks evalGapEngine 64 cexChild = 0 := by
    norm_num [calcAttacks, hall, hsa]
  have hev1 : evalMinmax evalGapEngine 64 cexChild = 0 := by
    rw [evalMinmax, hsum, hca]; norm_num
  have hev2 : evalAlphaBeta evalGapEngine cexChild = 1 / 5 := by
    norm_num [evalAlphaBeta, evaluateAlphaBetaSt, numPseudoLegalChecks, findKing, findKing.go,
      hps, hpa, hall, hb, ht, kingsBoard, noSquare, hsum, sumMaterial, getPieceValue, hbw, hwb]
  have hmm : (mmSearch evalGapEngine (evalMinmax evalGapEngine 64) 0 cexRoot).2 = 0 := by
    have hcmp : -maxFloat < (0 : ℚ) := by norm_num [maxFloat]
    norm_num [mmSearch, mmLeafMax, htr, hlm, ham, hev1, hcmp, nullMove]
  have hab : (abSearch evalGapEngine (evalAlphaBeta evalGapEngine) 0
      cexRoot (-maxFloat) maxFloat).2 = 1 / 5 := by
    have hcmp : -maxFloat < (1 : ℚ) / 5 := by norm_num [maxFloat]
    have hcmp2 : ¬((1 : ℚ) / 5 > maxFloat) := by norm_num [maxFloat]
    norm_num [abSearch, abLeafMax, htr, hlm, ham, hev2, hcmp, hcmp2, nullMove]
  rw [hab, hmm]
  norm_num

/-- One non-terminal step of the rollout loop: play the drawn move and
continue with one ply less. -/
theorem rolloutGo_step {Extra : Type} (E : Engine Extra) (a : Color) (rng : RNG)
    (base : Position Extra → ℚ) (fuel i : Nat) (p : Position Extra)
    (hmate : E.isCheckMate p = false) (hne : E.legalMoves p ≠ []) :
    rolloutGo E a rng base (fuel + 1) i p =
      rolloutGo E a rng base fuel (i + 1)
        (E.applyMove p ((E.legalMoves p).getD (rng i % (E.legalMoves p).length) nullMove)) := by
  simp [rolloutGo, hmate, hne]

/-- The rollout returns 1 as soon as it sees a mate the agent delivered. -/
theorem rolloutGo_agentMate {Extra : Type} (E : Engine Extra) (a : Color) (rng : RNG)
    (base : Position Extra → ℚ) (fuel i : Nat) (p : Position Extra)
    (hmate : E.isCheckMate p = true) (ht : p.turn ≠ a) :
    rolloutGo E a rng base (fuel + 1) i p = 1 := by
  simp [rolloutGo, hmate, ht]

set_option maxHeartbeats 1600000 in
/-- C3 counterexample: in the single-tree variant, when the root has a
terminal (checkmate) child, an iteration that re-selects it increments its
visit counter twice (once inside `iterate`'s terminal branch, once by the
caller's back-propagation), so after 2 iterations the root children's visit
counts sum to 3, not 2. -/
theorem mcts_visit_sum_cex :
    (((runIters terminalChildEngine zeroOps .white
          (fun p rng => randomRolloutB terminalChildEngine p .white rng)
          zeroRngs 5 0 2 (freshRoot mctsRoot)).children).map SNode.n).sum = 3 ∧
      (3 : Nat) ≠ 2 := by
  refine ⟨?_, by decide⟩
  have hlm : terminalChildEngine.legalMoves mctsRoot = [⟨2, 3, .noType⟩] := by decide
  have ham : ∀ m, terminalChildEngine.applyMove mctsRoot m = mctsMate := by
    intro m; simp [terminalChildEngine]
  have hamM : ∀ m, terminalChildEngine.applyMove mctsMate m = mctsMate := by
    intro m; simp [terminalChildEngine, mctsRoot, mctsMate]
  have hcm1 : terminalChildEngine.isCheckMate mctsRoot = false := by decide
  have hcm2 : terminalChildEngine.isCheckMate mctsMate = true := by decide
  have hsm : ∀ q, terminalChildEngine.isStaleMate q = false := fun _ => rfl
  have ht1 : mctsRoot.turn = Color.white := rfl
  have ht2 : mctsMate.turn = Color.black := rfl
  have hbw : Color.black ≠ Color.white := by decide
  have hwb : Color.white ≠ Color.black := by decide
  have hroll : ∀ rng : RNG, randomRolloutB terminalChildEngine mctsRoot .white rng = 1 := by
    intro rng
    simp [randomRolloutB, rolloutGo_step, rolloutGo_agentMate, hcm1, hcm2, hlm, ham, ht2, hbw]
  norm_num [runIters, iterateF, freshRoot, fillInChildren, selectIdx, firstZeroIdx,
    ucbArgmax, ucbArgmax.go, calcUCB, zeroOps, zeroRngs, hroll,
    SNode.n, SNode.w, SNode.mov, SNode.pos, SNode.children, maxFloat, nullMove,
    hlm, ham, hamM, hcm1, hcm2, hsm, ht1, ht2, hbw, hwb]

/-! ### Frame lemmas about one MCTS iteration -/

/-- `iterate` never changes the position snapshot of the node it is called
on. -/
theorem iterateF_pos {Extra : Type} (E : Engine Extra) (ops : FloatOps) (gN : Nat) (a : Color)
    (roll : Position Extra → RNG → ℚ) (rng : RNG) :
    ∀ (fuel : Nat) (nd : SNode Extra),
      (iterateF E ops gN a roll rng fuel nd).1.pos = nd.pos := by
  intro fuel nd
  cases fuel with
  | zero => rfl
  | succ f =>
    simp only [iterateF]
    split_ifs <;> simp [SNode.pos, fillInChildren] <;> split_ifs <;>
      simp [SNode.pos, fillInChildren]

/-- `iterate` on a non-terminal node leaves that node's own visit counter
and reward unchanged (only the selected child subtree is updated). -/
theorem iterateF_own {Extra : Type} (E : Engine Extra) (ops : FloatOps) (gN : Nat) (a : Color)
    (roll : Position Extra → RNG → ℚ) (rng : RNG) (fuel : Nat) (nd : SNode Extra)
    (hm : E.isCheckMate nd.pos = false) (hs : E.isStaleMate nd.pos = false) :
    (iterateF E ops gN a roll rng fuel nd).1.n = nd.n ∧
      (iterateF E ops gN a roll rng fuel nd).1.w = nd.w := by
  cases fuel with
  | zero => exact ⟨rfl, rfl⟩
  | succ f =>
    simp only [iterateF, hm, hs, Bool.false_eq_true, false_and, if_false, false_or, or_self]
    split_ifs <;> constructor <;> simp [SNode.n, SNode.w, fillInChildren] <;> split_ifs <;>
      simp [SNode.n, SNode.w, fillInChildren]

/-- Replacing the `i`-th element changes a mapped sum by exactly the
difference of the images (stated without subtraction). -/
theorem sumMap_set_add {α : Type _} (f : α → Nat) :
    ∀ (l : List α) (i : Nat) (x : α) (h : i < l.length),
      ((l.set i x).map f).sum + f (l.get ⟨i, h⟩) = (l.map f).sum + f x := by
  intro l
  induction l with
  | nil => intro i x h; simp at h
  | cons a t ih =>
    intro i x h
    cases i with
    | zero => simp [List.set]; omega
    | succ j =>
      have hj : j < t.length := by simpa using h
      have := ih j x hj
      simp only [List.set, List.map, List.sum_cons, List.get]
      omega

/-- The index found by `firstZeroIdx` is in range. -/
theorem firstZeroIdx_lt {Extra : Type} :
    ∀ (l : List (SNode Extra)) (i : Nat), firstZeroIdx l = some i → i < l.length := by
  intro l
  induction l with
  | nil => intro i h; simp [firstZeroIdx] at h
  | cons c t ih =>
    intro i h
    simp only [firstZeroIdx] at h
    split_ifs at h with hc
    · cases h; simp
    · cases hft : firstZeroIdx t with
      | none => rw [hft] at h; simp at h
      | some j =>
        rw [hft] at h
        simp at h
        have := ih j hft
        simp only [List.length_cons]
        omega

/-- Range invariant of the UCB1 argmax loop. -/
theorem ucbArgmax_go_lt {Extra : Type} (ops : FloatOps) (gN : Nat) :
    ∀ (l : List (SNode Extra)) (i : Nat) (m : ℚ) (b N : Nat),
      b < N → i + l.length ≤ N → ucbArgmax.go ops gN l i m b < N := by
  intro l
  induction l with
  | nil => intro i m b N hb _; simpa [ucbArgmax.go] using hb
  | cons c t ih =>
    intro i m b N hb hlen
    simp only [ucbArgmax.go, List.length_cons] at hlen ⊢
    split_ifs
    · exact ih (i + 1) _ i N (by omega) (by omega)
    · exact ih (i + 1) m b N hb (by omega)

/-- On a nonempty child list, `selectNode` returns an in-range index. -/
theorem selectIdx_lt {Extra : Type} (ops : FloatOps) (gN : Nat)
    (children : List (SNode Extra)) (h : children ≠ []) :
    selectIdx ops gN children < children.length := by
  unfold selectIdx
  cases hfz : firstZeroIdx children with
  | some i => simpa using firstZeroIdx_lt children i hfz
  | none =>
    unfold ucbArgmax
    have hlen : 0 < children.length := List.length_pos.mpr h
    exact ucbArgmax_go_lt ops gN children 0 (-maxFloat) 0 children.length hlen (by omega)

/-- Filling the children of a node with no legal moves is the identity. -/
theorem fillInChildren_no_moves {Extra : Type} (E : Engine Extra) (nd : SNode Extra)
    (hleg : E.legalMoves nd.pos = []) : fillInChildren E nd = nd := by
  cases nd with
  | mk w n mov pos ch =>
    simp [fillInChildren, SNode.children, SNode.pos, SNode.w, SNode.n, SNode.mov] at *
    simp [hleg]

/-- Running `iterate` on a node with empty children is the same as first
materializing the children (the code fills them in before selecting). -/
theorem iterateF_fill_eq {Extra : Type} (E : Engine Extra) (ops : FloatOps) (gN : Nat)
    (a : Color) (roll : Position Extra → RNG → ℚ) (rng : RNG) (fuel : Nat) (nd : SNode Extra)
    (hm : E.isCheckMate nd.pos = false) (hs : E.isStaleMate nd.pos = false)
    (hemp : nd.children = []) :
    iterateF E ops gN a roll rng (fuel + 1) nd =
      iterateF E ops gN a roll rng (fuel + 1) (fillInChildren E nd) := by
  have hpos : (fillInChildren E nd).pos = nd.pos := by simp [fillInChildren, SNode.pos]
  by_cases hleg : E.legalMoves nd.pos = []
  · rw [fillInChildren_no_moves E nd hleg]
  · have hfc : (fillInChildren E nd).children ≠ [] := by
      simp [fillInChildren, SNode.children, hemp, hleg]
    have h1 : nd.children.isEmpty = true := by simp [hemp]
    have h2 : (fillInChildren E nd).children.isEmpty = false := by
      simpa [List.isEmpty_iff] using hfc
    have h3 : fillInChildren E (fillInChildren E nd) = fillInChildren E (fillInChildren E nd) :=
      rfl
    simp only [iterateF, hpos, hm, hs, Bool.false_eq_true, false_and, if_false, false_or,
      or_self, h1, h2, if_true, if_false, Bool.true_eq_false]

/-- Core of the MCTS visit accounting: one iteration on a non-terminal node
whose children are materialized, nonempty and all non-terminal adds exactly
1 to the sum of the children's visit counters, keeps the child list nonempty
and keeps every child non-terminal. -/
theorem iterateF_child_sum_core {Extra : Type} (E : Engine Extra) (ops : FloatOps) (gN : Nat)
    (a : Color) (roll : Position Extra → RNG → ℚ) (rng : RNG) (fuel : Nat) (nd : SNode Extra)
    (hm : E.isCheckMate nd.pos = false) (hs : E.isStaleMate nd.pos = false)
    (hne : nd.children ≠ [])
    (hch : ∀ c ∈ nd.children, E.isCheckMate c.pos = false ∧ E.isStaleMate c.pos = false) :
    (((iterateF E ops gN a roll rng (fuel + 1) nd).1.children).map SNode.n).sum
        = ((nd.children).map SNode.n).sum + 1 ∧
      (iterateF E ops gN a roll rng (fuel + 1) nd).1.children ≠ [] ∧
      ∀ c ∈ (iterateF E ops gN a roll rng (fuel + 1) nd).1.children,
        E.isCheckMate c.pos = false ∧ E.isStaleMate c.pos = false := by
  have hempF : nd.children.isEmpty = false := by
    simpa [List.isEmpty_iff] using hne
  have hi : selectIdx ops gN nd.children < nd.children.length := selectIdx_lt ops gN _ hne
  have hselget : nd.children.getD (selectIdx ops gN nd.children) (SNode.mk 0 0 nullMove nd.pos [])
      = nd.children.get ⟨selectIdx ops gN nd.children, hi⟩ := List.getD_eq_get _ _ hi
  have hselmem : nd.children.getD (selectIdx ops gN nd.children) (SNode.mk 0 0 nullMove nd.pos [])
      ∈ nd.children := hselget ▸ List.get_mem _ _ _
  have hselterm := hch _ hselmem
  simp only [iterateF, hm, hs, Bool.false_eq_true, false_and, if_false, false_or, or_self,
    hempF, ite_false]
  set sel := nd.children.getD (selectIdx ops gN nd.children) (SNode.mk 0 0 nullMove nd.pos [])
    with hseldef
  by_cases hseln : sel.n = 0
  · rw [if_pos hseln]
    dsimp only
    refine ⟨?_, ?_, ?_⟩
    · have hkey := sumMap_set_add SNode.n nd.children (selectIdx ops gN nd.children)
        (SNode.mk (sel.w + roll nd.pos rng) (sel.n + 1) sel.mov sel.pos sel.children) hi
      rw [← hselget] at hkey
      simp only [SNode.n_mk, SNode.children_mk] at hkey ⊢
      omega
    · intro hnil
      have hlen := congrArg List.length hnil
      simp only [SNode.children_mk, List.length_set, List.length_nil] at hlen
      omega
    · intro c hc
      simp only [SNode.children_mk] at hc
      rcases List.mem_or_eq_of_mem_set hc with h | rfl
      · exact hch c h
      · simpa using hselterm
  · rw [if_neg hseln]
    dsimp only
    have hown := iterateF_own E ops gN a roll rng fuel sel hselterm.1 hselterm.2
    have hpos := iterateF_pos E ops gN a roll rng fuel sel
    refine ⟨?_, ?_, ?_⟩
    · have hkey := sumMap_set_add SNode.n nd.children (selectIdx ops gN nd.children)
        (SNode.mk ((iterateF E ops gN a roll rng fuel sel).1.w
            + (iterateF E ops gN a roll rng fuel sel).2)
          ((iterateF E ops gN a roll rng fuel sel).1.n + 1)
          (iterateF E ops gN a roll rng fuel sel).1.mov
          (iterateF E ops gN a roll rng fuel sel).1.pos
          (iterateF E ops gN a roll rng fuel sel).1.children) hi
      rw [← hselget] at hkey
      simp only [SNode.n_mk, SNode.children_mk] at hkey ⊢
      have hn := hown.1
      omega
    · intro hnil
      have hlen := congrArg List.length hnil
      simp only [SNode.children_mk, List.length_set, List.length_nil] at hlen
      omega
    · intro c hc
      simp only [SNode.children_mk] at hc
      rcases List.mem_or_eq_of_mem_set hc with h | rfl
      · exact hch c h
      · simpa [hpos] using hselterm

/-- Visit accounting for one `iterate` call, children materialized on demand:
under a non-terminal node whose existing children and whose legal-move
successors are all non-terminal, the sum of the children's visit counters
grows by exactly 1 and all children stay non-terminal. -/
theorem iterateF_child_sum {Extra : Type} (E : Engine Extra) (ops : FloatOps) (gN : Nat)
    (a : Color) (roll : Position Extra → RNG → ℚ) (rng : RNG) (fuel : Nat) (nd : SNode Extra)
    (hm : E.isCheckMate nd.pos = false) (hs : E.isStaleMate nd.pos = false)
    (hne : nd.children = [] → E.legalMoves nd.pos ≠ [])
    (hch : ∀ c ∈ nd.children, E.isCheckMate c.pos = false ∧ E.isStaleMate c.pos = false)
    (hfill : ∀ m ∈ E.legalMoves nd.pos,
      E.isCheckMate (E.applyMove nd.pos m) = false ∧
        E.isStaleMate (E.applyMove nd.pos m) = false) :
    (((iterateF E ops gN a roll rng (fuel + 1) nd).1.children).map SNode.n).sum
        = ((nd.children).map SNode.n).sum + 1 ∧
      (iterateF E ops gN a roll rng (fuel + 1) nd).1.children ≠ [] ∧
      ∀ c ∈ (iterateF E ops gN a roll rng (fuel + 1) nd).1.children,
        E.isCheckMate c.pos = false ∧ E.isStaleMate c.pos = false := by
  by_cases hemp : nd.children = []
  · rw [iterateF_fill_eq E ops gN a roll rng fuel nd hm hs hemp]
    have h1 : (fillInChildren E nd).children =
        (E.legalMoves nd.pos).map (fun m => SNode.mk 0 0 m (E.applyMove nd.pos m) []) := by
      simp [fillInChildren, hemp]
    have hposf : (fillInChildren E nd).pos = nd.pos := by simp [fillInChildren]
    have hne2 : (fillInChildren E nd).children ≠ [] := by
      rw [h1]
      simpa using hne hemp
    have hch2 : ∀ c ∈ (fillInChildren E nd).children,
        E.isCheckMate c.pos = false ∧ E.isStaleMate c.pos = false := by
      rw [h1]
      intro c hc
      obtain ⟨m, hmem, rfl⟩ := List.mem_map.mp hc
      simpa using hfill m hmem
    obtain ⟨hsum, hne3, hch3⟩ := iterateF_child_sum_core E ops gN a roll rng fuel
      (fillInChildren E nd) (by rw [hposf]; exact hm) (by rw [hposf]; exact hs) hne2 hch2
    refine ⟨?_, hne3, hch3⟩
    have hzero : ∀ l : List Move,
        ((l.map (fun m => SNode.mk 0 0 m (E.applyMove nd.pos m) [])).map SNode.n).sum = 0 := by
      intro l
      induction l with
      | nil => rfl
      | cons x t ih => simp only [List.map_cons, List.sum_cons, SNode.n_mk, ih]
    rw [hsum, h1, hemp, hzero]
    rfl
  · exact iterateF_child_sum_core E ops gN a roll rng fuel nd hm hs hemp hch

/-- C3 amended: in the single-tree MCTS variant, as long as no root child is
a terminal position, the sum of the root children's visit counters after
`GetMove`'s iteration loop equals the number of completed top-level
iterations; a terminal (checkmate/stalemate) root child that is re-selected
receives two increments in that iteration, breaking the equality (see the
counterexample). -/
theorem mcts_visit_sum_amended {Extra : Type} (E : Engine Extra) (ops : FloatOps) (a : Color)
    (roll : Position Extra → RNG → ℚ) (rngs : Nat → RNG) (fuel : Nat) (p : Position Extra)
    (hm : E.isCheckMate p = false) (hs : E.isStaleMate p = false)
    (hne : E.legalMoves p ≠ [])
    (hchild : ∀ m ∈ E.legalMoves p,
      E.isCheckMate (E.applyMove p m) = false ∧ E.isStaleMate (E.applyMove p m) = false) :
    ∀ (k j : Nat),
      (((runIters E ops a roll rngs (fuel + 1) j k (freshRoot p)).children).map SNode.n).sum
        = k := by
  have main : ∀ (k j : Nat) (nd : SNode Extra), nd.pos = p →
      (∀ c ∈ nd.children, E.isCheckMate c.pos = false ∧ E.isStaleMate c.pos = false) →
      (((runIters E ops a roll rngs (fuel + 1) j k nd).children).map SNode.n).sum
        = ((nd.children).map SNode.n).sum + k := by
    intro k
    induction k with
    | zero => intro j nd _ _; rfl
    | succ kk ih =>
      intro j nd hposP hch
      obtain ⟨hsum, -, hch2⟩ := iterateF_child_sum E ops j a roll (rngs j) fuel nd
        (by rw [hposP]; exact hm) (by rw [hposP]; exact hs)
        (fun _ => by rw [hposP]; exact hne)
        hch
        (by rw [hposP]; exact hchild)
      have hpos2 : (iterateF E ops j a roll (rngs j) (fuel + 1) nd).1.pos = p := by
        rw [iterateF_pos, hposP]
      have := ih (j + 1) (iterateF E ops j a roll (rngs j) (fuel + 1) nd).1 hpos2 hch2
      simp only [runIters]
      omega
  intro k j
  have := main k j (freshRoot p) rfl (by intro c hc; simp [freshRoot] at hc)
  simpa [freshRoot] using this

/-- Witness for `mcts_visit_sum_amended`: one iteration on the loop engine
leaves the single root child with one visit. -/
theorem mcts_visit_sum_amended_witness :
    (((runIters loopEngine zeroOps .white (fun _ _ => 0) zeroRngs 3 0 1
        (freshRoot posU)).children).map SNode.n).sum = 1 :=
  mcts_visit_sum_amended loopEngine zeroOps .white (fun _ _ => 0) zeroRngs 2 posU
    rfl rfl (by simp [loopEngine]) (by intro m _; exact ⟨rfl, rfl⟩) 1 0

/-- C8: in the single-tree variant, back-propagation never touches the root
node's own counters: a single iteration on any node standing at a
non-terminal position preserves its `n` and `w`, and after any number of
`GetMove` loop iterations from a non-terminal root the root's visit counter
(and reward) is still 0. -/
theorem mcts_root_never_visited {Extra : Type} (E : Engine Extra) (ops : FloatOps) (a : Color)
    (roll : Position Extra → RNG → ℚ) (rngs : Nat → RNG) (fuel : Nat) (p : Position Extra)
    (hm : E.isCheckMate p = false) (hs : E.isStaleMate p = false) :
    (∀ (gN : Nat) (rng : RNG) (fuelI : Nat) (nd : SNode Extra), nd.pos = p →
      (iterateF E ops gN a roll rng fuelI nd).1.n = nd.n ∧
        (iterateF E ops gN a roll rng fuelI nd).1.w = nd.w) ∧
    ∀ (k j : Nat),
      (runIters E ops a roll rngs fuel j k (freshRoot p)).n = 0 ∧
        (runIters E ops a roll rngs fuel j k (freshRoot p)).w = 0 := by
  have hstep : ∀ (gN : Nat) (rng : RNG) (fuelI : Nat) (nd : SNode Extra), nd.pos = p →
      (iterateF E ops gN a roll rng fuelI nd).1.n = nd.n ∧
        (iterateF E ops gN a roll rng fuelI nd).1.w = nd.w := by
    intro gN rng fuelI nd hp
    exact iterateF_own E ops gN a roll rng fuelI nd (by rw [hp]; exact hm)
      (by rw [hp]; exact hs)
  refine ⟨hstep, ?_⟩
  have main : ∀ (k j : Nat) (nd : SNode Extra), nd.pos = p →
      (runIters E ops a roll rngs fuel j k nd).n = nd.n ∧
        (runIters E ops a roll rngs fuel j k nd).w = nd.w := by
    intro k
    induction k with
    | zero => intro j nd _; exact ⟨rfl, rfl⟩
    | succ kk ih =>
      intro j nd hp
      have hpos2 : (iterateF E ops j a roll (rngs j) fuel nd).1.pos = p := by
        rw [iterateF_pos, hp]
      have h1 := hstep j (rngs j) fuel nd hp
      have h2 := ih (j + 1) (iterateF E ops j a roll (rngs j) fuel nd).1 hpos2
      simp only [runIters]
      exact ⟨h2.1.trans h1.1, h2.2.trans h1.2⟩
  intro k j
  exact main k j (freshRoot p) rfl

/-- Witness for `mcts_root_never_visited` on the loop engine. -/
theorem mcts_root_never_visited_witness :
    (runIters loopEngine zeroOps .white (fun _ _ => 0) zeroRngs 3 0 2 (freshRoot posU)).n = 0 :=
  ((mcts_root_never_visited loopEngine zeroOps .white (fun _ _ => 0) zeroRngs 3 posU
    rfl rfl).2 2 0).1

/-! ### Tree invariants for C7 -/

/-- Characterization of `goodB` through the node's fields. -/
theorem goodB_iff {Extra : Type} (nd : SNode Extra) :
    goodB nd = true ↔ 0 ≤ nd.w ∧ nd.w ≤ (nd.n : ℚ) ∧ goodListB nd.children = true := by
  cases nd with
  | mk w n mov pos ch =>
    simp [goodB, Bool.and_eq_true, decide_eq_true_iff, and_assoc]

/-- `goodListB` holds exactly when every member is good. -/
theorem goodListB_forall {Extra : Type} :
    ∀ l : List (SNode Extra), goodListB l = true ↔ ∀ c ∈ l, goodB c = true := by
  intro l
  induction l with
  | nil => simp [goodListB]
  | cons c t ih => simp [goodListB, Bool.and_eq_true, ih]

/-- Characterization of `nGrowsB` through the nodes' fields. -/
theorem nGrowsB_iff {Extra : Type} (x y : SNode Extra) :
    nGrowsB x y = true ↔ x.n ≤ y.n ∧ nGrowsListB x.children y.children = true := by
  cases x with
  | mk w n mov pos ch =>
    cases y with
    | mk w' n' mov' pos' ch' =>
      simp [nGrowsB, Bool.and_eq_true, decide_eq_true_iff]

mutual

/-- `nGrowsB` is reflexive. -/
theorem nGrowsB_refl {Extra : Type} : ∀ nd : SNode Extra, nGrowsB nd nd = true
  | .mk w n mov pos ch => by
    simp [nGrowsB, Bool.and_eq_true, decide_eq_true_iff, nGrowsListB_refl ch]

/-- `nGrowsListB` is reflexive. -/
theorem nGrowsListB_refl {Extra : Type} : ∀ l : List (SNode Extra), nGrowsListB l l = true
  | [] => rfl
  | c :: t => by
    simp [nGrowsListB, Bool.and_eq_true, nGrowsB_refl c, nGrowsListB_refl t]

end

/-- Appending new children is a growth. -/
theorem nGrowsListB_append {Extra : Type} :
    ∀ (l e : List (SNode Extra)), nGrowsListB l (l ++ e) = true := by
  intro l e
  induction l with
  | nil => cases e <;> rfl
  | cons c t ih => simp [nGrowsListB, Bool.and_eq_true, nGrowsB_refl c, ih]

/-- Replacing one element by a grown one is a growth of the list. -/
theorem nGrowsListB_set {Extra : Type} :
    ∀ (l : List (SNode Extra)) (i : Nat) (x : SNode Extra),
      (∀ h : i < l.length, nGrowsB (l.get ⟨i, h⟩) x = true) →
      nGrowsListB l (l.set i x) = true := by
  intro l
  induction l with
  | nil => intro i x _; rfl
  | cons c t ih =>
    intro i x hx
    cases i with
    | zero =>
      simp only [List.set]
      have := hx (by simp)
      simp only [List.get] at this
      simp [nGrowsListB, Bool.and_eq_true, this, nGrowsListB_refl t]
    | succ j =>
      simp only [List.set]
      have hrec : nGrowsListB t (t.set j x) = true := by
        apply ih j x
        intro h
        have := hx (by simpa using Nat.succ_lt_succ h)
        simpa [List.get] using this
      simp [nGrowsListB, Bool.and_eq_true, nGrowsB_refl c, hrec]

/-- Setting a good element into a good list keeps it good. -/
theorem goodListB_set {Extra : Type} (l : List (SNode Extra)) (i : Nat) (x : SNode Extra)
    (hl : goodListB l = true) (hx : goodB x = true) : goodListB (l.set i x) = true := by
  rw [goodListB_forall] at hl ⊢
  intro c hc
  rcases List.mem_or_eq_of_mem_set hc with h | rfl
  · exact hl c h
  · exact hx

/-- The children materialized by `fillInChildren` keep the tree good. -/
theorem goodB_fill {Extra : Type} (E : Engine Extra) (nd : SNode Extra)
    (h : goodB nd = true) : goodB (fillInChildren E nd) = true := by
  rw [goodB_iff] at h ⊢
  simp only [fillInChildren, SNode.w_mk, SNode.n_mk, SNode.children_mk, SNode.pos_mk]
  refine ⟨h.1, h.2.1, ?_⟩
  rw [goodListB_forall]
  intro c hc
  rcases List.mem_append.mp hc with hmem | hmem
  · exact (goodListB_forall _).mp h.2.2 c hmem
  · obtain ⟨m, -, rfl⟩ := List.mem_map.mp hmem
    rw [goodB_iff]
    simp [goodListB]

/-- The selected child of a good child list is good, for any in- or
out-of-range index (the out-of-range default is a fresh good node). -/
theorem goodB_getD {Extra : Type} (l : List (SNode Extra)) (i : Nat) (p : Position Extra)
    (hl : goodListB l = true) :
    goodB (l.getD i (SNode.mk 0 0 nullMove p [])) = true := by
  by_cases h : i < l.length
  · rw [List.getD_eq_get _ _ h]
    exact (goodListB_forall _).mp hl _ (List.get_mem _ _ _)
  · rw [List.getD_eq_default _ _ (by omega)]
    rw [goodB_iff]
    simp [goodListB]

/-- Core of C7: one `iterate` call preserves `0 ≤ w ≤ n` at every node of
the tree, back-propagates a result in `[0, 1]`, and never decreases any
visit counter. -/
theorem iterateF_good {Extra : Type} (E : Engine Extra) (ops : FloatOps) (gN : Nat) (a : Color)
    (roll : Position Extra → RNG → ℚ) (rng : RNG)
    (hroll : ∀ (q : Position Extra) (r : RNG), 0 ≤ roll q r ∧ roll q r ≤ 1) :
    ∀ (fuel : Nat) (nd : SNode Extra), goodB nd = true →
      goodB (iterateF E ops gN a roll rng fuel nd).1 = true ∧
        0 ≤ (iterateF E ops gN a roll rng fuel nd).2 ∧
        (iterateF E ops gN a roll rng fuel nd).2 ≤ 1 ∧
        nGrowsB nd (iterateF E ops gN a roll rng fuel nd).1 = true := by
  intro fuel
  induction fuel with
  | zero =>
    intro nd hnd
    exact ⟨hnd, le_refl 0, by show (0 : ℚ) ≤ 1; norm_num, nGrowsB_refl nd⟩
  | succ f ih =>
    intro nd hnd
    obtain ⟨hw0, hwn, hchg⟩ := (goodB_iff nd).mp hnd
    simp only [iterateF]
    split_ifs with h1 h2 hemp hsel1 hsel2
    · -- checkmate delivered by the agent
      refine ⟨?_, by norm_num, by norm_num, ?_⟩
      · rw [goodB_iff]
        simp only [SNode.w_mk, SNode.n_mk, SNode.children_mk]
        refine ⟨by linarith, ?_, hchg⟩
        push_cast
        linarith
      · rw [nGrowsB_iff]
        simp only [SNode.n_mk, SNode.children_mk]
        exact ⟨Nat.le_succ _, nGrowsListB_refl _⟩
    · -- stalemate or checkmate against the agent
      refine ⟨?_, le_refl 0, by norm_num, ?_⟩
      · rw [goodB_iff]
        simp only [SNode.w_mk, SNode.n_mk, SNode.children_mk]
        refine ⟨hw0, ?_, hchg⟩
        push_cast
        linarith
      · rw [nGrowsB_iff]
        simp only [SNode.n_mk, SNode.children_mk]
        exact ⟨Nat.le_succ _, nGrowsListB_refl _⟩
    · -- children filled in, unvisited child selected: rollout
      have hempL : nd.children = [] := by simpa [List.isEmpty_iff] using hemp
      have hgood1 : goodB (fillInChildren E nd) = true := goodB_fill E nd hnd
      obtain ⟨hfw, hfn, hfch⟩ := (goodB_iff _).mp hgood1
      obtain ⟨hsw, hsn, hsch⟩ := (goodB_iff _).mp (goodB_getD _
        (selectIdx ops gN (fillInChildren E nd).children) (fillInChildren E nd).pos hfch)
      obtain ⟨hr0, hr1⟩ := hroll (fillInChildren E nd).pos rng
      dsimp only
      refine ⟨?_, hr0, hr1, ?_⟩
      · rw [goodB_iff]
        simp only [SNode.w_mk, SNode.n_mk, SNode.children_mk]
        refine ⟨hfw, hfn, goodListB_set _ _ _ hfch ?_⟩
        rw [goodB_iff]
        simp only [SNode.w_mk, SNode.n_mk, SNode.children_mk]
        refine ⟨by linarith, ?_, hsch⟩
        push_cast
        linarith
      · rw [nGrowsB_iff]
        simp only [SNode.n_mk, SNode.children_mk, hempL]
        exact ⟨by simp [fillInChildren], rfl⟩
    · -- children filled in, visited child selected: recurse
      have hempL : nd.children = [] := by simpa [List.isEmpty_iff] using hemp
      have hgood1 : goodB (fillInChildren E nd) = true := goodB_fill E nd hnd
      obtain ⟨hfw, hfn, hfch⟩ := (goodB_iff _).mp hgood1
      have hselgood := goodB_getD (fillInChildren E nd).children
        (selectIdx ops gN (fillInChildren E nd).children) (fillInChildren E nd).pos hfch
      obtain ⟨hrg, hr0, hr1, hrgrow⟩ := ih _ hselgood
      obtain ⟨hgw, hgn, hgch⟩ := (goodB_iff _).mp hrg
      dsimp only
      refine ⟨?_, hr0, hr1, ?_⟩
      · rw [goodB_iff]
        simp only [SNode.w_mk, SNode.n_mk, SNode.children_mk]
        refine ⟨hfw, hfn, goodListB_set _ _ _ hfch ?_⟩
        rw [goodB_iff]
        simp only [SNode.w_mk, SNode.n_mk, SNode.children_mk]
        refine ⟨by linarith, ?_, hgch⟩
        push_cast
        linarith
      · rw [nGrowsB_iff]
        simp only [SNode.n_mk, SNode.children_mk, hempL]
        exact ⟨by simp [fillInChildren], rfl⟩
    · -- children already present, unvisited child selected: rollout
      obtain ⟨hsw, hsn, hsch⟩ := (goodB_iff _).mp (goodB_getD nd.children
        (selectIdx ops gN nd.children) nd.pos hchg)
      obtain ⟨hr0, hr1⟩ := hroll nd.pos rng
      dsimp only
      refine ⟨?_, hr0, hr1, ?_⟩
      · rw [goodB_iff]
        simp only [SNode.w_mk, SNode.n_mk, SNode.children_mk]
        refine ⟨hw0, hwn, goodListB_set _ _ _ hchg ?_⟩
        rw [goodB_iff]
        simp only [SNode.w_mk, SNode.n_mk, SNode.children_mk]
        refine ⟨by linarith, ?_, hsch⟩
        push_cast
        linarith
      · rw [nGrowsB_iff]
        simp only [SNode.n_mk, SNode.children_mk]
        refine ⟨le_refl _, nGrowsListB_set _ _ _ ?_⟩
        intro h
        rw [← List.getD_eq_get _ (SNode.mk 0 0 nullMove nd.pos []) h]
        rw [nGrowsB_iff]
        simp only [SNode.n_mk, SNode.children_mk]
        exact ⟨Nat.le_succ _, nGrowsListB_refl _⟩
    · -- children already present, visited child selected: recurse
      have hselgood := goodB_getD nd.children (selectIdx ops gN nd.children) nd.pos hchg
      obtain ⟨hrg, hr0, hr1, hrgrow⟩ := ih _ hselgood
      obtain ⟨hgw, hgn, hgch⟩ := (goodB_iff _).mp hrg
      obtain ⟨hgrown, hgrowch⟩ := (nGrowsB_iff _ _).mp hrgrow
      dsimp only
      refine ⟨?_, hr0, hr1, ?_⟩
      · rw [goodB_iff]
        simp only [SNode.w_mk, SNode.n_mk, SNode.children_mk]
        refine ⟨hw0, hwn, goodListB_set _ _ _ hchg ?_⟩
        rw [goodB_iff]
        simp only [SNode.w_mk, SNode.n_mk, SNode.children_mk]
        refine ⟨by linarith, ?_, hgch⟩
        push_cast
        linarith
      · rw [nGrowsB_iff]
        simp only [SNode.n_mk, SNode.children_mk]
        refine ⟨le_refl _, nGrowsListB_set _ _ _ ?_⟩
        intro h
        rw [← List.getD_eq_get _ (SNode.mk 0 0 nullMove nd.pos []) h]
        rw [nGrowsB_iff]
        simp only [SNode.n_mk, SNode.children_mk]
        exact ⟨by omega, hgrowch⟩

/-- C7: for every MCTS node (both variants share `iterate`; the parallel-root
variant adds the `concurrentIterate` wrapper), every iteration preserves
`0 ≤ w ≤ n` throughout the tree, back-propagates a result in `[0, 1]`, and
never decreases any visit counter — so the average `w / n` lies in `[0, 1]`
whenever `n > 0`. -/
theorem mcts_node_invariants {Extra : Type} (E : Engine Extra) (ops : FloatOps) (gN : Nat)
    (a : Color) (roll : Position Extra → RNG → ℚ) (rng : RNG) (fuel : Nat) (nd : SNode Extra)
    (hroll : ∀ (q : Position Extra) (r : RNG), 0 ≤ roll q r ∧ roll q r ≤ 1)
    (hgood : goodB nd = true) :
    goodB (iterateF E ops gN a roll rng fuel nd).1 = true ∧
      0 ≤ (iterateF E ops gN a roll rng fuel nd).2 ∧
      (iterateF E ops gN a roll rng fuel nd).2 ≤ 1 ∧
      nGrowsB nd (iterateF E ops gN a roll rng fuel nd).1 = true ∧
      goodB (concurrentIterateStep E ops gN a roll rng fuel nd) = true ∧
      nGrowsB nd (concurrentIterateStep E ops gN a roll rng fuel nd) = true ∧
      ∀ m : SNode Extra, goodB m = true → 0 < m.n →
        0 ≤ m.w / (m.n : ℚ) ∧ m.w / (m.n : ℚ) ≤ 1 := by
  obtain ⟨hg, h0, h1, hgr⟩ := iterateF_good E ops gN a roll rng hroll fuel nd hgood
  refine ⟨hg, h0, h1, hgr, ?_, ?_, ?_⟩
  · unfold concurrentIterateStep
    obtain ⟨hW, hN, hC⟩ := (goodB_iff _).mp hg
    rw [goodB_iff]
    simp only [SNode.w_mk, SNode.n_mk, SNode.children_mk]
    refine ⟨by linarith, ?_, hC⟩
    push_cast
    linarith
  · unfold concurrentIterateStep
    obtain ⟨hn, hc⟩ := (nGrowsB_iff _ _).mp hgr
    rw [nGrowsB_iff]
    simp only [SNode.n_mk, SNode.children_mk]
    exact ⟨by omega, hc⟩
  · intro m hm hn
    obtain ⟨h0w, hw, -⟩ := (goodB_iff m).mp hm
    have hpos : (0 : ℚ) < (m.n : ℚ) := by exact_mod_cast hn
    exact ⟨div_nonneg h0w hpos.le, by rw [div_le_one hpos]; exact hw⟩

/-- Witness for `mcts_node_invariants` on the loop engine with a constant
rollout of 1. -/
theorem mcts_node_invariants_witness :
    goodB (iterateF loopEngine zeroOps 0 .white (fun _ _ => 1) (fun _ => 0) 3
      (freshRoot posU)).1 = true :=
  (mcts_node_invariants loopEngine zeroOps 0 .white (fun _ _ => 1) (fun _ => 0) 3
    (freshRoot posU) (fun _ _ => by norm_num)
    (by rw [goodB_iff]; simp [freshRoot, goodListB])).1

/-! ### Alpha-beta / minmax score equivalence (C1)

The proof follows the classical fail-soft alpha-beta argument: for every
window `(alpha, beta)` the alpha-beta value `v` and the minmax value `t` of
the same node satisfy `min t beta ≤ v ≤ max t alpha`; at the root's full
window `(-maxFloat, maxFloat)` and with all values inside that range the two
are forced to be equal.  Stalemates are excluded: the code scores a
stalemate child through the running best, which interacts with pruned
(bounded) sibling values and genuinely breaks the equivalence. -/

/-- The depth-0 max loop only improves its running best, and stays bounded
by `maxFloat` when the evaluator is. -/
theorem mmLeafMax_bounds {Extra : Type} (E : Engine Extra) (ev : Position Extra → ℚ)
    (p : Position Extra) (hev : ∀ q, ev q ≤ maxFloat) :
    ∀ (ms : List Move) (acc : Move × ℚ), acc.2 ≤ maxFloat →
      acc.2 ≤ (mmLeafMax E ev p ms acc).2 ∧ (mmLeafMax E ev p ms acc).2 ≤ maxFloat := by
  intro ms
  induction ms with
  | nil => intro acc h; exact ⟨le_refl _, h⟩
  | cons m rest ih =>
    intro acc hacc
    obtain ⟨bm, h⟩ := acc
    simp only [mmLeafMax]
    split_ifs with hgt
    · have := ih (m, ev (E.applyMove p m)) (hev _)
      exact ⟨le_trans (le_of_lt hgt) this.1, this.2⟩
    · exact ih (bm, h) hacc

/-- The depth-0 min loop only lowers its running best, and stays bounded
below by `-maxFloat` when the evaluator is. -/
theorem mmLeafMin_bounds {Extra : Type} (E : Engine Extra) (ev : Position Extra → ℚ)
    (p : Position Extra) (hev : ∀ q, -maxFloat ≤ ev q) :
    ∀ (ms : List Move) (acc : Move × ℚ), -maxFloat ≤ acc.2 →
      (mmLeafMin E ev p ms acc).2 ≤ acc.2 ∧ -maxFloat ≤ (mmLeafMin E ev p ms acc).2 := by
  intro ms
  induction ms with
  | nil => intro acc h; exact ⟨le_refl _, h⟩
  | cons m rest ih =>
    intro acc hacc
    obtain ⟨bm, h⟩ := acc
    simp only [mmLeafMin]
    split_ifs with hlt
    · have := ih (m, ev (E.applyMove p m)) (hev _)
      exact ⟨le_trans this.1 (le_of_lt hlt), this.2⟩
    · exact ih (bm, h) hacc

/-- The positive-depth max loop (no stalemates) only improves its running
best and stays bounded by `maxFloat` when the recursion is. -/
theorem mmMaxLoop_bounds {Extra : Type} (E : Engine Extra) (rec : Position Extra → Move × ℚ)
    (p : Position Extra) (hstale : ∀ q, E.isStaleMate q = false)
    (hrec : ∀ q, (rec q).2 ≤ maxFloat) :
    ∀ (ms : List Move) (acc : Move × ℚ), acc.2 ≤ maxFloat →
      acc.2 ≤ (mmMaxLoop E rec p ms acc).2 ∧ (mmMaxLoop E rec p ms acc).2 ≤ maxFloat := by
  intro ms
  induction ms with
  | nil => intro acc h; exact ⟨le_refl _, h⟩
  | cons m rest ih =>
    intro acc hacc
    obtain ⟨bm, h⟩ := acc
    simp only [mmMaxLoop, hstale, Bool.false_eq_true, false_and, if_false]
    split_ifs with hmate hgt
    · exact ⟨hacc, le_refl _⟩
    · have := ih (m, (rec (E.applyMove p m)).2) (hrec _)
      exact ⟨le_trans (le_of_lt hgt) this.1, this.2⟩
    · exact ih (bm, h) hacc

/-- The positive-depth min loop (no stalemates) only lowers its running best
and stays bounded below by `-maxFloat` when the recursion is. -/
theorem mmMinLoop_bounds {Extra : Type} (E : Engine Extra) (rec : Position Extra → Move × ℚ)
    (p : Position Extra) (hstale : ∀ q, E.isStaleMate q = false)
    (hrec : ∀ q, -maxFloat ≤ (rec q).2) :
    ∀ (ms : List Move) (acc : Move × ℚ), -maxFloat ≤ acc.2 →
      (mmMinLoop E rec p ms acc).2 ≤ acc.2 ∧ -maxFloat ≤ (mmMinLoop E rec p ms acc).2 := by
  intro ms
  induction ms with
  | nil => intro acc h; exact ⟨le_refl _, h⟩
  | cons m rest ih =>
    intro acc hacc
    obtain ⟨bm, h⟩ := acc
    simp only [mmMinLoop, hstale, Bool.false_eq_true, false_and, if_false]
    split_ifs with hmate hlt
    · exact ⟨hacc, le_refl _⟩
    · have := ih (m, (rec (E.applyMove p m)).2) (hrec _)
      exact ⟨le_trans this.1 (le_of_lt hlt), this.2⟩
    · exact ih (bm, h) hacc

/-- Minmax scores always lie in `[-maxFloat, maxFloat]` when the evaluator
does and there are no stalemates. -/
theorem mmSearch_bounds {Extra : Type} (E : Engine Extra) (ev : Position Extra → ℚ)
    (hstale : ∀ q, E.isStaleMate q = false)
    (hev : ∀ q, -maxFloat ≤ ev q ∧ ev q ≤ maxFloat) :
    ∀ (d : Nat) (p : Position Extra),
      -maxFloat ≤ (mmSearch E ev d p).2 ∧ (mmSearch E ev d p).2 ≤ maxFloat := by
  intro d
  induction d with
  | zero =>
    intro p
    simp only [mmSearch]
    split_ifs
    · have h1 := mmLeafMax_bounds E ev p (fun q => (hev q).2) (E.legalMoves p)
        (nullMove, -maxFloat) (by dsimp only; linarith [maxFloat_pos])
      dsimp only at h1
      exact ⟨le_trans (le_refl _) h1.1, h1.2⟩
    · have h1 := mmLeafMin_bounds E ev p (fun q => (hev q).1) (E.legalMoves p)
        (nullMove, maxFloat) (by dsimp only; linarith [maxFloat_pos])
      dsimp only at h1
      exact ⟨h1.2, le_trans h1.1 (le_refl _)⟩
    · constructor <;> dsimp only <;> linarith [maxFloat_pos]
  | succ d ih =>
    intro p
    simp only [mmSearch]
    split_ifs
    · have h1 := mmMaxLoop_bounds E (mmSearch E ev d) p hstale (fun q => (ih q).2)
        (E.legalMoves p) (nullMove, -maxFloat) (by dsimp only; linarith [maxFloat_pos])
      dsimp only at h1
      exact ⟨h1.1, h1.2⟩
    · have h1 := mmMinLoop_bounds E (mmSearch E ev d) p hstale (fun q => (ih q).1)
        (E.legalMoves p) (nullMove, maxFloat) (by dsimp only; linarith [maxFloat_pos])
      dsimp only at h1
      exact ⟨h1.2, h1.1⟩
    · constructor <;> dsimp only <;> linarith [maxFloat_pos]

/-- Pure growth of the depth-0 max loop. -/
theorem mmLeafMax_ge {Extra : Type} (E : Engine Extra) (ev : Position Extra → ℚ)
    (p : Position Extra) :
    ∀ (ms : List Move) (acc : Move × ℚ), acc.2 ≤ (mmLeafMax E ev p ms acc).2 := by
  intro ms
  induction ms with
  | nil => intro acc; exact le_refl _
  | cons m rest ih =>
    intro acc
    obtain ⟨bm, h⟩ := acc
    simp only [mmLeafMax]
    split_ifs with hgt
    · exact le_trans (le_of_lt hgt) (ih (m, ev (E.applyMove p m)))
    · exact ih (bm, h)

/-- Pure descent of the depth-0 min loop. -/
theorem mmLeafMin_le {Extra : Type} (E : Engine Extra) (ev : Position Extra → ℚ)
    (p : Position Extra) :
    ∀ (ms : List Move) (acc : Move × ℚ), (mmLeafMin E ev p ms acc).2 ≤ acc.2 := by
  intro ms
  induction ms with
  | nil => intro acc; exact le_refl _
  | cons m rest ih =>
    intro acc
    obtain ⟨bm, h⟩ := acc
    simp only [mmLeafMin]
    split_ifs with hlt
    · exact le_trans (ih (m, ev (E.applyMove p m))) (le_of_lt hlt)
    · exact ih (bm, h)

/-- Fail-soft relation between the depth-0 loops of `alphabeta.go` and
`minmax.go` run from the same running best: the pruned value never exceeds
the exhaustive one and can fall short only beyond `beta`. -/
theorem abLeafMax_rel {Extra : Type} (E : Engine Extra) (ev : Position Extra → ℚ)
    (p : Position Extra) (beta : ℚ) :
    ∀ (ms : List Move) (bm bm' : Move) (h : ℚ),
      min (mmLeafMax E ev p ms (bm, h)).2 beta ≤ (abLeafMax E ev p beta ms (bm', h)).2 ∧
      (abLeafMax E ev p beta ms (bm', h)).2 ≤ (mmLeafMax E ev p ms (bm, h)).2 := by
  intro ms
  induction ms with
  | nil => intro bm bm' h; exact ⟨min_le_left _ _, le_refl _⟩
  | cons m rest ih =>
    intro bm bm' h
    simp only [mmLeafMax, abLeafMax]
    by_cases hgt : ev (E.applyMove p m) > h
    · simp only [if_pos hgt]
      by_cases hb : ev (E.applyMove p m) > beta
      · simp only [if_pos hb]
        have hmono := mmLeafMax_ge E ev p rest (m, ev (E.applyMove p m))
        dsimp only at hmono ⊢
        exact ⟨le_trans (min_le_right _ _) (le_of_lt hb), hmono⟩
      · simp only [if_neg hb]
        exact ih m m (ev (E.applyMove p m))
    · simp only [if_neg hgt]
      by_cases hb : h > beta
      · simp only [if_pos hb]
        have hmono := mmLeafMax_ge E ev p rest (bm, h)
        dsimp only at hmono ⊢
        exact ⟨le_trans (min_le_right _ _) (le_of_lt hb), hmono⟩
      · simp only [if_neg hb]
        exact ih bm bm' h

/-- Dual fail-soft relation for the depth-0 min loops. -/
theorem abLeafMin_rel {Extra : Type} (E : Engine Extra) (ev : Position Extra → ℚ)
    (p : Position Extra) (alpha : ℚ) :
    ∀ (ms : List Move) (bm bm' : Move) (h : ℚ),
      (mmLeafMin E ev p ms (bm, h)).2 ≤ (abLeafMin E ev p alpha ms (bm', h)).2 ∧
      (abLeafMin E ev p alpha ms (bm', h)).2 ≤ max (mmLeafMin E ev p ms (bm, h)).2 alpha := by
  intro ms
  induction ms with
  | nil => intro bm bm' h; exact ⟨le_refl _, le_max_left _ _⟩
  | cons m rest ih =>
    intro bm bm' h
    simp only [mmLeafMin, abLeafMin]
    by_cases hlt : ev (E.applyMove p m) < h
    · simp only [if_pos hlt]
      by_cases hb : ev (E.applyMove p m) < alpha
      · simp only [if_pos hb]
        have hmono := mmLeafMin_le E ev p rest (m, ev (E.applyMove p m))
        dsimp only at hmono ⊢
        exact ⟨hmono, le_trans (le_of_lt hb) (le_max_right _ _)⟩
      · simp only [if_neg hb]
        exact ih m m (ev (E.applyMove p m))
    · simp only [if_neg hlt]
      by_cases hb : h < alpha
      · simp only [if_pos hb]
        have hmono := mmLeafMin_le E ev p rest (bm, h)
        dsimp only at hmono ⊢
        exact ⟨hmono, le_trans (le_of_lt hb) (le_max_right _ _)⟩
      · simp only [if_neg hb]
        exact ih bm bm' h

/-- Fail-soft window relation for the positive-depth max loops: starting the
alpha-beta loop and the minmax loop from related running bests, the pruned
value stays within `beta` below and within `alpha0` above the exhaustive
value. -/
theorem abMaxLoop_rel {Extra : Type} (E : Engine Extra) (ev : Position Extra → ℚ)
    (hstale : ∀ q, E.isStaleMate q = false) (d : Nat) (p : Position Extra)
    (beta alpha0 : ℚ)
    (IH : ∀ (q : Position Extra) (α β : ℚ),
      min (mmSearch E ev d q).2 β ≤ (abSearch E ev d q α β).2 ∧
      (abSearch E ev d q α β).2 ≤ max (mmSearch E ev d q).2 α)
    (VB : ∀ q : Position Extra,
      -maxFloat ≤ (mmSearch E ev d q).2 ∧ (mmSearch E ev d q).2 ≤ maxFloat) :
    ∀ (ms : List Move) (bm bm' : Move) (h g ah : ℚ),
      min g beta ≤ h → h ≤ max g alpha0 → alpha0 ≤ ah → ah ≤ max alpha0 h →
      g ≤ maxFloat →
      min (mmMaxLoop E (mmSearch E ev d) p ms (bm, g)).2 beta
          ≤ (abMaxLoop E (abSearch E ev d) p beta ms (bm', h, ah)).2 ∧
      (abMaxLoop E (abSearch E ev d) p beta ms (bm', h, ah)).2
          ≤ max (mmMaxLoop E (mmSearch E ev d) p ms (bm, g)).2 alpha0 := by
  intro ms
  induction ms with
  | nil =>
    intro bm bm' h g ah i1 i2 _ _ _
    exact ⟨i1, i2⟩
  | cons m rest ih =>
    intro bm bm' h g ah i1 i2 i3 i4 i5
    simp only [mmMaxLoop, abMaxLoop, hstale, Bool.false_eq_true, false_and, if_false]
    by_cases hmate : E.isCheckMate (E.applyMove p m) = true
    · simp only [hmate, if_true]
      exact ⟨min_le_left _ _, le_max_left _ _⟩
    · simp only [hmate, Bool.false_eq_true, if_false]
      have IHc := IH (E.applyMove p m) ah beta
      have VBc := VB (E.applyMove p m)
      have hmmEq :
          (if (mmSearch E ev d (E.applyMove p m)).2 > g then
            mmMaxLoop E (mmSearch E ev d) p rest (m, (mmSearch E ev d (E.applyMove p m)).2)
          else mmMaxLoop E (mmSearch E ev d) p rest (bm, g))
          = mmMaxLoop E (mmSearch E ev d) p rest
              ((if (mmSearch E ev d (E.applyMove p m)).2 > g then m else bm),
                max g (mmSearch E ev d (E.applyMove p m)).2) := by
        split_ifs with hcmp
        · rw [max_eq_right (le_of_lt hcmp)]
        · rw [max_eq_left (not_lt.mp hcmp)]
      have habacc :
          (if (abSearch E ev d (E.applyMove p m) ah beta).2 > h then
            (m, (abSearch E ev d (E.applyMove p m) ah beta).2)
          else (bm', h))
          = ((if (abSearch E ev d (E.applyMove p m) ah beta).2 > h then m else bm'),
              max h (abSearch E ev d (E.applyMove p m) ah beta).2) := by
        split_ifs with hcmp
        · rw [max_eq_right (le_of_lt hcmp)]
        · rw [max_eq_left (not_lt.mp hcmp)]
      rw [hmmEq, habacc]
      dsimp only
      have hahEq :
          (if max h (abSearch E ev d (E.applyMove p m) ah beta).2 > ah then
            max h (abSearch E ev d (E.applyMove p m) ah beta).2
          else ah)
          = max ah (max h (abSearch E ev d (E.applyMove p m) ah beta).2) := by
        split_ifs with hcmp
        · rw [max_eq_right (le_of_lt hcmp)]
        · rw [max_eq_left (not_lt.mp hcmp)]
      rw [hahEq]
      by_cases hbk : max h (abSearch E ev d (E.applyMove p m) ah beta).2 > beta
      · rw [if_pos hbk]
        dsimp only
        have hT := mmMaxLoop_bounds E (mmSearch E ev d) p hstale (fun q => (VB q).2)
          rest ((if (mmSearch E ev d (E.applyMove p m)).2 > g then m else bm),
            max g (mmSearch E ev d (E.applyMove p m)).2)
          (by dsimp only; exact max_le i5 VBc.2)
        dsimp only at hT
        refine ⟨le_trans (min_le_right _ _) (le_of_lt hbk), max_le ?_ ?_⟩
        · exact i2.trans (max_le ((le_max_left g _).trans (hT.1.trans (le_max_left _ _)))
            (le_max_right _ _))
        · refine IHc.2.trans (max_le ?_ ?_)
          · exact (le_max_right g _).trans (hT.1.trans (le_max_left _ _))
          · refine i4.trans (max_le (le_max_right _ _) ?_)
            exact i2.trans (max_le ((le_max_left g _).trans (hT.1.trans (le_max_left _ _)))
              (le_max_right _ _))
      · rw [if_neg hbk]
        apply ih
        · -- min (max g s_t) beta ≤ max h s_v
          rcases min_le_iff.mp i1 with u | u
          · rcases min_le_iff.mp IHc.1 with v | v
            · exact min_le_iff.mpr (Or.inl (max_le (u.trans (le_max_left _ _))
                (v.trans (le_max_right _ _))))
            · exact min_le_iff.mpr (Or.inr (v.trans (le_max_right _ _)))
          · exact min_le_iff.mpr (Or.inr (u.trans (le_max_left _ _)))
        · -- max h s_v ≤ max (max g s_t) alpha0
          refine max_le (i2.trans (max_le_max (le_max_left g _) (le_refl _))) ?_
          refine IHc.2.trans (max_le ((le_max_right g _).trans (le_max_left _ _)) ?_)
          refine i4.trans (max_le (le_max_right _ _) ?_)
          exact i2.trans (max_le_max (le_max_left g _) (le_refl _))
        · exact i3.trans (le_max_left _ _)
        · -- max ah (max h s_v) ≤ max alpha0 (max h s_v)
          exact max_le (i4.trans (max_le_max (le_refl _) (le_max_left h _)))
            (le_max_right _ _)
        · exact max_le i5 VBc.2

/-- Fail-soft window relation for the positive-depth min loops, the dual of
the max-loop relation: the evolving beta only prunes, keeping the value
within `beta0` below and `alpha` above the exhaustive minmax value. -/
theorem abMinLoop_rel {Extra : Type} (E : Engine Extra) (ev : Position Extra → ℚ)
    (hstale : ∀ q, E.isStaleMate q = false) (d : Nat) (p : Position Extra)
    (alpha beta0 : ℚ)
    (IH : ∀ (q : Position Extra) (α β : ℚ),
      min (mmSearch E ev d q).2 β ≤ (abSearch E ev d q α β).2 ∧
      (abSearch E ev d q α β).2 ≤ max (mmSearch E ev d q).2 α)
    (VB : ∀ q : Position Extra,
      -maxFloat ≤ (mmSearch E ev d q).2 ∧ (mmSearch E ev d q).2 ≤ maxFloat) :
    ∀ (ms : List Move) (bm bm' : Move) (h g bh : ℚ),
      h ≤ max g alpha → min g beta0 ≤ h → bh ≤ beta0 → min beta0 h ≤ bh →
      -maxFloat ≤ g →
      min (mmMinLoop E (mmSearch E ev d) p ms (bm, g)).2 beta0
          ≤ (abMinLoop E (abSearch E ev d) p alpha ms (bm', h, bh)).2 ∧
      (abMinLoop E (abSearch E ev d) p alpha ms (bm', h, bh)).2
          ≤ max (mmMinLoop E (mmSearch E ev d) p ms (bm, g)).2 alpha := by
  intro ms
  induction ms with
  | nil =>
    intro bm bm' h g bh i1 i2 _ _ _
    exact ⟨i2, i1⟩
  | cons m rest ih =>
    intro bm bm' h g bh i1 i2 i3 i4 i5
    simp only [mmMinLoop, abMinLoop, hstale, Bool.false_eq_true, false_and, if_false]
    by_cases hmate : E.isCheckMate (E.applyMove p m) = true
    · simp only [hmate, if_true]
      exact ⟨min_le_left _ _, le_max_left _ _⟩
    · simp only [hmate, Bool.false_eq_true, if_false]
      have IHc := IH (E.applyMove p m) alpha bh
      have VBc := VB (E.applyMove p m)
      have hmmEq :
          (if (mmSearch E ev d (E.applyMove p m)).2 < g then
            mmMinLoop E (mmSearch E ev d) p rest (m, (mmSearch E ev d (E.applyMove p m)).2)
          else mmMinLoop E (mmSearch E ev d) p rest (bm, g))
          = mmMinLoop E (mmSearch E ev d) p rest
              ((if (mmSearch E ev d (E.applyMove p m)).2 < g then m else bm),
                min g (mmSearch E ev d (E.applyMove p m)).2) := by
        split_ifs with hcmp
        · rw [min_eq_right (le_of_lt hcmp)]
        · rw [min_eq_left (not_lt.mp hcmp)]
      have habacc :
          (if (abSearch E ev d (E.applyMove p m) alpha bh).2 < h then
            (m, (abSearch E ev d (E.applyMove p m) alpha bh).2)
          else (bm', h))
          = ((if (abSearch E ev d (E.applyMove p m) alpha bh).2 < h then m else bm'),
              min h (abSearch E ev d (E.applyMove p m) alpha bh).2) := by
        split_ifs with hcmp
        · rw [min_eq_right (le_of_lt hcmp)]
        · rw [min_eq_left (not_lt.mp hcmp)]
      rw [hmmEq, habacc]
      dsimp only
      have hbhEq :
          (if min h (abSearch E ev d (E.applyMove p m) alpha bh).2 < bh then
            min h (abSearch E ev d (E.applyMove p m) alpha bh).2
          else bh)
          = min bh (min h (abSearch E ev d (E.applyMove p m) alpha bh).2) := by
        split_ifs with hcmp
        · rw [min_eq_right (le_of_lt hcmp)]
        · rw [min_eq_left (not_lt.mp hcmp)]
      rw [hbhEq]
      by_cases hbk : min h (abSearch E ev d (E.applyMove p m) alpha bh).2 < alpha
      · rw [if_pos hbk]
        dsimp only
        have hT := mmMinLoop_bounds E (mmSearch E ev d) p hstale (fun q => (VB q).1)
          rest ((if (mmSearch E ev d (E.applyMove p m)).2 < g then m else bm),
            min g (mmSearch E ev d (E.applyMove p m)).2)
          (by dsimp only; exact le_min i5 VBc.1)
        dsimp only at hT
        have hTh : min (mmMinLoop E (mmSearch E ev d) p rest
            ((if (mmSearch E ev d (E.applyMove p m)).2 < g then m else bm),
              min g (mmSearch E ev d (E.applyMove p m)).2)).2 beta0 ≤ h :=
          le_trans (min_le_min (hT.1.trans (min_le_left g _)) (le_refl _)) i2
        refine ⟨le_min hTh ?_, le_trans (le_of_lt hbk) (le_max_right _ _)⟩
        rcases min_le_iff.mp IHc.1 with u | u
        · exact le_trans (min_le_left _ _)
            ((hT.1.trans (min_le_right g _)).trans u)
        · exact le_trans (le_min (min_le_right _ _) hTh) (i4.trans u)
      · rw [if_neg hbk]
        apply ih
        · -- min h s_v ≤ max (min g s_t) alpha
          rcases le_max_iff.mp i1 with u | u
          · rcases le_max_iff.mp IHc.2 with v | v
            · exact le_max_iff.mpr (Or.inl (le_min ((min_le_left _ _).trans u)
                ((min_le_right _ _).trans v)))
            · exact le_max_iff.mpr (Or.inr ((min_le_right _ _).trans v))
          · exact le_max_iff.mpr (Or.inr ((min_le_left _ _).trans u))
        · -- min (min g s_t) beta0 ≤ min h s_v
          refine le_min (le_trans (min_le_min (min_le_left g _) (le_refl _)) i2) ?_
          refine le_trans ?_ IHc.1
          refine le_min ((min_le_left _ _).trans (min_le_right g _)) ?_
          refine le_trans ?_ i4
          exact le_min (min_le_right _ _)
            (le_trans (min_le_min (min_le_left g _) (le_refl _)) i2)
        · exact (min_le_left _ _).trans i3
        · -- min beta0 (min h s_v) ≤ min bh (min h s_v)
          exact le_min ((min_le_min (le_refl _) (min_le_left h _)).trans i4)
            (min_le_right _ _)
        · exact le_min i5 VBc.1

/-- At every depth, on stalemate-free engines with evaluations bounded by
`maxFloat`, the alpha-beta score lies in the fail-soft window around the
minmax score: clipped below by `beta`, above by `alpha`. -/
theorem abSearch_window {Extra : Type} (E : Engine Extra) (ev : Position Extra → ℚ)
    (hstale : ∀ q, E.isStaleMate q = false)
    (hev : ∀ q, -maxFloat ≤ ev q ∧ ev q ≤ maxFloat) :
    ∀ (d : Nat) (q : Position Extra) (alpha beta : ℚ),
      min (mmSearch E ev d q).2 beta ≤ (abSearch E ev d q alpha beta).2 ∧
      (abSearch E ev d q alpha beta).2 ≤ max (mmSearch E ev d q).2 alpha := by
  intro d
  induction d with
  | zero =>
    intro q alpha beta
    simp only [mmSearch, abSearch]
    by_cases hw : q.turn = Color.white
    · simp only [hw, if_true]
      have h := abLeafMax_rel E ev q beta (E.legalMoves q) nullMove nullMove (-maxFloat)
      exact ⟨h.1, h.2.trans (le_max_left _ _)⟩
    · simp only [hw, if_false]
      by_cases hb : q.turn = Color.black
      · simp only [hb, if_true]
        have h := abLeafMin_rel E ev q alpha (E.legalMoves q) nullMove nullMove maxFloat
        exact ⟨(min_le_left _ _).trans h.1, h.2⟩
      · simp only [hb, if_false]
        exact ⟨min_le_left _ _, le_max_left _ _⟩
  | succ d ih =>
    intro q alpha beta
    have VB := fun r => mmSearch_bounds E ev hstale hev d r
    have hMM : (-maxFloat : ℚ) ≤ maxFloat := by
      have := maxFloat_pos; linarith
    simp only [mmSearch, abSearch]
    by_cases hw : q.turn = Color.white
    · simp only [hw, if_true]
      exact abMaxLoop_rel E ev hstale d q beta alpha ih VB (E.legalMoves q)
        nullMove nullMove (-maxFloat) (-maxFloat) alpha
        (min_le_left _ _) (le_max_left _ _) (le_refl _) (le_max_left _ _) hMM
    · simp only [hw, if_false]
      by_cases hb : q.turn = Color.black
      · simp only [hb, if_true]
        exact abMinLoop_rel E ev hstale d q alpha beta ih VB (E.legalMoves q)
          nullMove nullMove maxFloat maxFloat beta
          (le_max_left _ _) (min_le_left _ _) (le_refl _) (min_le_left _ _) hMM
      · simp only [hb, if_false]
        exact ⟨min_le_left _ _, le_max_left _ _⟩

/-- C1 (amended): with the same evaluator on both sides, a stalemate-free
engine, and evaluations bounded by `maxFloat` in magnitude, the score
returned by the alpha-beta `search` at the full window
`(-maxFloat, maxFloat)` equals the score returned by the minmax `search`
at every depth and position. (The repository's two packages use different
evaluators, and the stalemate branch scores relative to the running best,
so both extra hypotheses are needed; see the counterexample.) -/
theorem alphabeta_minmax_score_amended {Extra : Type} (E : Engine Extra)
    (ev : Position Extra → ℚ) (hstale : ∀ q, E.isStaleMate q = false)
    (hev : ∀ q, -maxFloat ≤ ev q ∧ ev q ≤ maxFloat) (d : Nat) (p : Position Extra) :
    (abSearch E ev d p (-maxFloat) maxFloat).2 = (mmSearch E ev d p).2 := by
  have W := abSearch_window E ev hstale hev d p (-maxFloat) maxFloat
  have VB := mmSearch_bounds E ev hstale hev d p
  have h1 : min (mmSearch E ev d p).2 maxFloat = (mmSearch E ev d p).2 :=
    min_eq_left VB.2
  have h2 : max (mmSearch E ev d p).2 (-maxFloat) = (mmSearch E ev d p).2 :=
    max_eq_left VB.1
  rw [h1, h2] at W
  exact le_antisymm W.2 W.1

/-- Closed instance of the amended C1 theorem: on the one-move single-position
engine with the constant-zero evaluator, depth 1 alpha-beta at the full
window returns the same score as minmax. -/
theorem alphabeta_minmax_score_amended_witness :
    (abSearch loopEngine (fun _ => 0) 1 posU (-maxFloat) maxFloat).2 =
      (mmSearch loopEngine (fun _ => 0) 1 posU).2 :=
  by
  apply alphabeta_minmax_score_amended loopEngine (fun _ => 0) (fun _ => rfl)
  intro q
  refine ⟨?_, ?_⟩
  · show -maxFloat ≤ (0 : ℚ)
    have := maxFloat_pos; linarith
  · exact le_of_lt maxFloat_pos

end AppleChess
